import Mathlib

/-!
# CveCheck: the constraint-language scanner of `process.go`

A shallow embedding of the lexical scanner (`Scanner`, its reader primitives
`read` / `unread`, the three character classifiers and `Scan`) together with
theorems about its token stream.

The Go scanner wraps a `bufio.Reader`.  The reader is represented by the
sequence of runes that `ReadRune` has still to deliver (`input`) and by the
rune delivered by the most recent successful `ReadRune` (`last`), which is what
`UnreadRune` is able to restore.  `ReadRune` clears that slot when it fails and
`UnreadRune` clears it when it succeeds, so a second `UnreadRune` in a row, or
an `UnreadRune` after a failed read, returns an error that `unread` discards.

`Scanner` takes the source to be a fixed, finite sequence of runes read without
error: a read fails exactly when no rune is left, and then keeps failing.  The
`read` of `process.go` returns `eof` on any error of `ReadRune`, and the reader
forgets an error once it has reported it, so that a source may deliver more
runes after a failed read.  `Fed` embeds the same scanner over such a reader.
The two agree on every source that delivers its runes without a failed read in
between (`fed_Scan_of`); what `Scan` does after it has returned `EOF` is stated
on `Fed`.
-/

namespace CveCheck

/-- Token kinds, in the order of the `iota` block of `process.go`. -/
inductive Token where
  | ILLEGAL
  | EOF
  | WS
  | IDENT
  | LESS_THAN_EQ
  | LESS_THAN
  | MORE_THAN
  | MORE_THAN_EQ
  | EQUAL
  | NOT_EQ
  | COMMA
  | COMMENT
  | VERSION
deriving DecidableEq, Repr

open Token

/-- Classifier `isWhitespace`: space, tab or newline. -/
def isWhitespace (ch : Char) : Bool :=
  ch == ' ' || ch == '\t' || ch == '\n'

/-- Classifier `isLetter`: an ASCII lower-case or upper-case letter. -/
def isLetter (ch : Char) : Bool :=
  (decide (ch ≥ 'a') && decide (ch ≤ 'z')) || (decide (ch ≥ 'A') && decide (ch ≤ 'Z'))

/-- Classifier `isNumber`: an ASCII digit or the period. -/
def isNumber (ch : Char) : Bool :=
  (decide (ch ≥ '0') && decide (ch ≤ '9')) || ch == '.'

/-- The scanner: the runes its buffered reader has not delivered yet, and the
rune of the last successful read while it can still be unread. -/
structure Scanner where
  input : List Char
  last : Option Char
deriving DecidableEq, Repr

/-- Constructor `NewScanner`: a scanner over a fresh buffered reader of the source `r`. -/
def NewScanner (r : List Char) : Scanner :=
  { input := r, last := none }

/-- The end-of-input sentinel `rune(0)`. -/
def eof : Char := Char.ofNat 0

/-- Method `Scanner.read`: the next rune, or `eof` when `ReadRune` reports an error.
Here the only error is the end of a source that is a fixed sequence of runes,
and it recurs at every later call; `Fed.read` covers reads that fail while the
source has more to deliver. -/
def Scanner.read (s : Scanner) : Char × Scanner :=
  match s.input with
  | [] => (eof, { input := [], last := none })
  | ch :: rest => (ch, { input := rest, last := some ch })

/-- Method `Scanner.unread`: `UnreadRune` with its error discarded; it restores the
rune of the last read when that read succeeded and was not already undone. -/
def Scanner.unread (s : Scanner) : Scanner :=
  match s.last with
  | none => s
  | some ch => { input := ch :: s.input, last := none }

/-- The loop of `scanComment`; `ch` holds the rune read last. -/
def Scanner.scanCommentLoop (ch : Char) (buf : String) (s : Scanner) : String × Scanner :=
  if ch ≠ '\n' ∧ ch ≠ eof then
    Scanner.scanCommentLoop s.read.1 (buf.push ch) s.read.2
  else
    (buf, s)
termination_by s.input.length + (if ch ≠ '\n' ∧ ch ≠ eof then 1 else 0)
decreasing_by
  rename_i h
  rw [if_pos h]
  cases s with
  | mk inp l =>
    cases inp with
    | nil => simp [Scanner.read]
    | cons c cs =>
      simp only [Scanner.read, List.length_cons]
      split <;> omega

/-- Method `Scanner.scanComment`: the runes up to the next newline or `eof`. -/
def Scanner.scanComment (s : Scanner) : String × Scanner :=
  Scanner.scanCommentLoop s.read.1 "" s.read.2

/-- The loop of `scanIdent`; `ch` holds the rune read last. -/
def Scanner.scanIdentLoop (ch : Char) (buf : String) (s : Scanner) : String × Scanner :=
  if isLetter ch then
    Scanner.scanIdentLoop s.read.1 (buf.push ch) s.read.2
  else
    (buf, s)
termination_by s.input.length + (if isLetter ch then 1 else 0)
decreasing_by
  rename_i h
  rw [if_pos h]
  cases s with
  | mk inp l =>
    cases inp with
    | nil => simp [Scanner.read, isLetter, eof]
    | cons c cs =>
      simp only [Scanner.read, List.length_cons]
      split <;> omega

/-- Method `Scanner.scanIdent`: a run of letters; the rune that ended it is unread. -/
def Scanner.scanIdent (s : Scanner) : String × Scanner :=
  let r := Scanner.scanIdentLoop s.read.1 "" s.read.2
  (r.1, r.2.unread)

/-- The loop of `scanNumber`; `ch` holds the rune read last. -/
def Scanner.scanNumberLoop (ch : Char) (buf : String) (s : Scanner) : String × Scanner :=
  if isNumber ch then
    Scanner.scanNumberLoop s.read.1 (buf.push ch) s.read.2
  else
    (buf, s)
termination_by s.input.length + (if isNumber ch then 1 else 0)
decreasing_by
  rename_i h
  rw [if_pos h]
  cases s with
  | mk inp l =>
    cases inp with
    | nil => simp [Scanner.read, isNumber, eof]
    | cons c cs =>
      simp only [Scanner.read, List.length_cons]
      split <;> omega

/-- Method `Scanner.scanNumber`: a run of digits and periods; the rune that ended it
is unread. -/
def Scanner.scanNumber (s : Scanner) : String × Scanner :=
  let r := Scanner.scanNumberLoop s.read.1 "" s.read.2
  (r.1, r.2.unread)

/-- The whitespace loop that opens `Scan`; `ch` holds the rune read last. -/
def Scanner.skipLoop (ch : Char) (s : Scanner) : Char × Scanner :=
  if isWhitespace ch then
    Scanner.skipLoop s.read.1 s.read.2
  else
    (ch, s)
termination_by s.input.length + (if isWhitespace ch then 1 else 0)
decreasing_by
  rename_i h
  rw [if_pos h]
  cases s with
  | mk inp l =>
    cases inp with
    | nil => simp [Scanner.read, isWhitespace, eof]
    | cons c cs =>
      simp only [Scanner.read, List.length_cons]
      split <;> omega

/-- Method `Scanner.Scan`: the next token, its literal text, and the scanner after
the call. -/
def Scanner.Scan (s : Scanner) : Token × String × Scanner :=
  let r := Scanner.skipLoop s.read.1 s.read.2
  let ch := r.1
  let s := r.2
  if isLetter ch then
    let i := s.unread.scanIdent
    (IDENT, i.1, i.2)
  else if isNumber ch then
    let n := s.unread.scanNumber
    (VERSION, n.1, n.2)
  else if ch = eof then
    (EOF, "", s)
  else if ch = '>' then
    if s.read.1 = '=' then (MORE_THAN_EQ, ">=", s.read.2)
    else (MORE_THAN, ">", s.read.2.unread)
  else if ch = '<' then
    if s.read.1 = '=' then (LESS_THAN_EQ, "<=", s.read.2)
    else (LESS_THAN, "<", s.read.2.unread)
  else if ch = '=' then
    if s.read.1 = '=' then (EQUAL, "==", s.read.2)
    else (ILLEGAL, String.singleton ch, s.read.2.unread)
  else if ch = '!' then
    if s.read.1 = '=' then (NOT_EQ, "!=", s.read.2)
    else (ILLEGAL, String.singleton ch, s.read.2.unread)
  else if ch = ',' then
    (COMMA, ",", s)
  else if ch = '#' then
    let c := s.scanComment
    (COMMENT, c.1, c.2)
  else
    (ILLEGAL, String.singleton ch, s)

/-- The state reached from `s` by `n` consecutive calls of `Scan`. -/
def Scanner.after (s : Scanner) : Nat → Scanner
  | 0 => s
  | n + 1 => (s.after n).Scan.2.2

/-- The tokens returned by the first `n` calls of `Scan` on `s`. -/
def Scanner.tokens (s : Scanner) : Nat → List (Token × String)
  | 0 => []
  | n + 1 => (s.Scan.1, s.Scan.2.1) :: s.Scan.2.2.tokens n

/-- The runes that `scanComment` keeps: anything but newline and `eof`. -/
def inComment (ch : Char) : Bool :=
  decide (ch ≠ '\n' ∧ ch ≠ eof)

/-! ## Specification vocabulary -/

/-- What the kind of a token promises about its lexeme: `WS` is never
returned; an operator or comma carries its own spelling; `IDENT` a non-empty
run of ASCII letters; `VERSION` a non-empty run of digits and periods;
`ILLEGAL` exactly one rune; `EOF` the empty string; `COMMENT` no newline. -/
def wellFormed : Token → String → Prop
  | ILLEGAL, lit => lit.data.length = 1
  | EOF, lit => lit = ""
  | WS, _ => False
  | IDENT, lit =>
    lit.data ≠ [] ∧ ∀ x ∈ lit.data, ('a' ≤ x ∧ x ≤ 'z') ∨ ('A' ≤ x ∧ x ≤ 'Z')
  | LESS_THAN_EQ, lit => lit = "<="
  | LESS_THAN, lit => lit = "<"
  | MORE_THAN, lit => lit = ">"
  | MORE_THAN_EQ, lit => lit = ">="
  | EQUAL, lit => lit = "=="
  | NOT_EQ, lit => lit = "!="
  | COMMA, lit => lit = ","
  | COMMENT, lit => '\n' ∉ lit.data
  | VERSION, lit =>
    lit.data ≠ [] ∧ ∀ x ∈ lit.data, ('0' ≤ x ∧ x ≤ '9') ∨ x = '.'

/-- The lexemes of a list of tokens, concatenated in order. -/
def concatLexemes : List (Token × String) → String
  | [] => ""
  | t :: ts => t.2 ++ concatLexemes ts

/-! ## The scanner with its reader calls logged -/

/-- A call of one of the two reader primitives. -/
inductive Op where
  | read
  | unread
deriving DecidableEq, Repr

/-- A scanner together with the log of the reader calls made on it so far,
oldest first. -/
structure Traced where
  sc : Scanner
  ops : List Op

/-- Logged `read`: the call of `Scanner.read`, recorded. -/
def Traced.read (t : Traced) : Char × Traced :=
  (t.sc.read.1, { sc := t.sc.read.2, ops := t.ops ++ [Op.read] })

/-- Logged `unread`: the call of `Scanner.unread`, recorded. -/
def Traced.unread (t : Traced) : Traced :=
  { sc := t.sc.unread, ops := t.ops ++ [Op.unread] }

/-- The loop of `scanComment` over the logged primitives. -/
def Traced.scanCommentLoop (ch : Char) (buf : String) (t : Traced) : String × Traced :=
  if ch ≠ '\n' ∧ ch ≠ eof then
    Traced.scanCommentLoop t.read.1 (buf.push ch) t.read.2
  else
    (buf, t)
termination_by t.sc.input.length + (if ch ≠ '\n' ∧ ch ≠ eof then 1 else 0)
decreasing_by
  rename_i h
  rw [if_pos h]
  obtain ⟨⟨inp, l⟩, ops⟩ := t
  cases inp with
  | nil => simp [Traced.read, Scanner.read]
  | cons c cs =>
    simp only [Traced.read, Scanner.read, List.length_cons]
    split <;> omega

/-- Logged `scanComment`. -/
def Traced.scanComment (t : Traced) : String × Traced :=
  Traced.scanCommentLoop t.read.1 "" t.read.2

/-- The loop of `scanIdent` over the logged primitives. -/
def Traced.scanIdentLoop (ch : Char) (buf : String) (t : Traced) : String × Traced :=
  if isLetter ch then
    Traced.scanIdentLoop t.read.1 (buf.push ch) t.read.2
  else
    (buf, t)
termination_by t.sc.input.length + (if isLetter ch then 1 else 0)
decreasing_by
  rename_i h
  rw [if_pos h]
  obtain ⟨⟨inp, l⟩, ops⟩ := t
  cases inp with
  | nil => simp [Traced.read, Scanner.read, isLetter, eof]
  | cons c cs =>
    simp only [Traced.read, Scanner.read, List.length_cons]
    split <;> omega

/-- Logged `scanIdent`. -/
def Traced.scanIdent (t : Traced) : String × Traced :=
  let r := Traced.scanIdentLoop t.read.1 "" t.read.2
  (r.1, r.2.unread)

/-- The loop of `scanNumber` over the logged primitives. -/
def Traced.scanNumberLoop (ch : Char) (buf : String) (t : Traced) : String × Traced :=
  if isNumber ch then
    Traced.scanNumberLoop t.read.1 (buf.push ch) t.read.2
  else
    (buf, t)
termination_by t.sc.input.length + (if isNumber ch then 1 else 0)
decreasing_by
  rename_i h
  rw [if_pos h]
  obtain ⟨⟨inp, l⟩, ops⟩ := t
  cases inp with
  | nil => simp [Traced.read, Scanner.read, isNumber, eof]
  | cons c cs =>
    simp only [Traced.read, Scanner.read, List.length_cons]
    split <;> omega

/-- Logged `scanNumber`. -/
def Traced.scanNumber (t : Traced) : String × Traced :=
  let r := Traced.scanNumberLoop t.read.1 "" t.read.2
  (r.1, r.2.unread)

/-- The whitespace loop of `Scan` over the logged primitives. -/
def Traced.skipLoop (ch : Char) (t : Traced) : Char × Traced :=
  if isWhitespace ch then
    Traced.skipLoop t.read.1 t.read.2
  else
    (ch, t)
termination_by t.sc.input.length + (if isWhitespace ch then 1 else 0)
decreasing_by
  rename_i h
  rw [if_pos h]
  obtain ⟨⟨inp, l⟩, ops⟩ := t
  cases inp with
  | nil => simp [Traced.read, Scanner.read, isWhitespace, eof]
  | cons c cs =>
    simp only [Traced.read, Scanner.read, List.length_cons]
    split <;> omega

/-- Logged `Scan`: the body of `Scanner.Scan` with every `read` and `unread`
recorded in the log. -/
def Traced.Scan (t : Traced) : Token × String × Traced :=
  let r := Traced.skipLoop t.read.1 t.read.2
  let ch := r.1
  let t := r.2
  if isLetter ch then
    let i := t.unread.scanIdent
    (IDENT, i.1, i.2)
  else if isNumber ch then
    let n := t.unread.scanNumber
    (VERSION, n.1, n.2)
  else if ch = eof then
    (EOF, "", t)
  else if ch = '>' then
    if t.read.1 = '=' then (MORE_THAN_EQ, ">=", t.read.2)
    else (MORE_THAN, ">", t.read.2.unread)
  else if ch = '<' then
    if t.read.1 = '=' then (LESS_THAN_EQ, "<=", t.read.2)
    else (LESS_THAN, "<", t.read.2.unread)
  else if ch = '=' then
    if t.read.1 = '=' then (EQUAL, "==", t.read.2)
    else (ILLEGAL, String.singleton ch, t.read.2.unread)
  else if ch = '!' then
    if t.read.1 = '=' then (NOT_EQ, "!=", t.read.2)
    else (ILLEGAL, String.singleton ch, t.read.2.unread)
  else if ch = ',' then
    (COMMA, ",", t)
  else if ch = '#' then
    let c := t.scanComment
    (COMMENT, c.1, c.2)
  else
    (ILLEGAL, String.singleton ch, t)

/-- The logged scanner after `n` consecutive calls of `Scan`. -/
def Traced.after (t : Traced) : Nat → Traced
  | 0 => t
  | n + 1 => (t.after n).Scan.2.2

/-- A log is free of double pushback when no `unread` directly follows
another `unread`. -/
def noDoubleUnread : List Op → Bool
  | [] => true
  | a :: rest => !(a == Op.unread && rest.head? == some Op.unread) && noDoubleUnread rest

/-- A logged scanner over a fresh reader of `r`, with an empty log. -/
def NewTraced (r : List Char) : Traced :=
  { sc := NewScanner r, ops := [] }

/-! ## The full load of `db.go` -/

/-- The feed address `fmt.Sprintf(tpl, year)` of `fill_nvd`. -/
def nvdUrl (year : Nat) : String :=
  "http://static.nvd.nist.gov/feeds/xml/cve/nvdcve-2.0-" ++ toString year ++ ".xml.gz"

/-- The loop of `fill_nvd`, `for i := 2; i < 16; i++`, reduced to the
addresses it passes to `http.Get`; `urls` holds those requested so far. -/
def fill_nvd_loop (i : Nat) (urls : List String) : List String :=
  if i < 16 then
    fill_nvd_loop (i + 1) (urls ++ [nvdUrl (2000 + i)])
  else
    urls
termination_by 16 - i
decreasing_by omega

/-- The addresses `fill_nvd` requests, in order, on a run in which every
download, decompression and decoding succeeds. -/
def fill_nvd : List String :=
  fill_nvd_loop 2 []

/-! ## The scanner over a reader whose reads may fail -/

/-- A scanner over a reader whose source is not taken to be a fixed sequence
of runes: `pending` lists the outcomes of the `ReadRune` calls to come, a rune
or an error (`none`), and once the list is spent every call reports an error.
An error is forgotten by the reader as soon as it is reported, so the call
after it asks the source again; `last` is the pending slot of `Scanner`. -/
structure Fed where
  pending : List (Option Char)
  last : Option Char
deriving DecidableEq, Repr

/-- A scanner over a fresh reader of a source with the read outcomes `src`. -/
def NewFed (src : List (Option Char)) : Fed :=
  { pending := src, last := none }

/-- Reader primitive `read` with the error path of `ReadRune`: `eof` on an
error, whether or not the source has more to deliver afterwards. -/
def Fed.read (f : Fed) : Char × Fed :=
  match f.pending with
  | [] => (eof, { pending := [], last := none })
  | none :: rest => (eof, { pending := rest, last := none })
  | some ch :: rest => (ch, { pending := rest, last := some ch })

/-- Reader primitive `unread` over such a reader. -/
def Fed.unread (f : Fed) : Fed :=
  match f.last with
  | none => f
  | some ch => { pending := some ch :: f.pending, last := none }

/-- The loop of `scanComment` over a reader whose reads may fail. -/
def Fed.scanCommentLoop (ch : Char) (buf : String) (f : Fed) : String × Fed :=
  if ch ≠ '\n' ∧ ch ≠ eof then
    Fed.scanCommentLoop f.read.1 (buf.push ch) f.read.2
  else
    (buf, f)
termination_by f.pending.length + (if ch ≠ '\n' ∧ ch ≠ eof then 1 else 0)
decreasing_by
  rename_i h
  rw [if_pos h]
  obtain ⟨p, l⟩ := f
  cases p with
  | nil => simp [Fed.read]
  | cons o os =>
    cases o with
    | none =>
      simp [Fed.read]
      omega
    | some c =>
      simp only [Fed.read, List.length_cons]
      split <;> omega

/-- Method `scanComment` over a reader whose reads may fail. -/
def Fed.scanComment (f : Fed) : String × Fed :=
  Fed.scanCommentLoop f.read.1 "" f.read.2

/-- The loop of `scanIdent` over a reader whose reads may fail. -/
def Fed.scanIdentLoop (ch : Char) (buf : String) (f : Fed) : String × Fed :=
  if isLetter ch then
    Fed.scanIdentLoop f.read.1 (buf.push ch) f.read.2
  else
    (buf, f)
termination_by f.pending.length + (if isLetter ch then 1 else 0)
decreasing_by
  rename_i h
  rw [if_pos h]
  obtain ⟨p, l⟩ := f
  cases p with
  | nil => simp [Fed.read, isLetter, eof]
  | cons o os =>
    cases o with
    | none =>
      simp [Fed.read, isLetter, eof]
      omega
    | some c =>
      simp only [Fed.read, List.length_cons]
      split <;> omega

/-- Method `scanIdent` over a reader whose reads may fail. -/
def Fed.scanIdent (f : Fed) : String × Fed :=
  let r := Fed.scanIdentLoop f.read.1 "" f.read.2
  (r.1, r.2.unread)

/-- The loop of `scanNumber` over a reader whose reads may fail. -/
def Fed.scanNumberLoop (ch : Char) (buf : String) (f : Fed) : String × Fed :=
  if isNumber ch then
    Fed.scanNumberLoop f.read.1 (buf.push ch) f.read.2
  else
    (buf, f)
termination_by f.pending.length + (if isNumber ch then 1 else 0)
decreasing_by
  rename_i h
  rw [if_pos h]
  obtain ⟨p, l⟩ := f
  cases p with
  | nil => simp [Fed.read, isNumber, eof]
  | cons o os =>
    cases o with
    | none =>
      simp [Fed.read, isNumber, eof]
      omega
    | some c =>
      simp only [Fed.read, List.length_cons]
      split <;> omega

/-- Method `scanNumber` over a reader whose reads may fail. -/
def Fed.scanNumber (f : Fed) : String × Fed :=
  let r := Fed.scanNumberLoop f.read.1 "" f.read.2
  (r.1, r.2.unread)

/-- The whitespace loop of `Scan` over a reader whose reads may fail. -/
def Fed.skipLoop (ch : Char) (f : Fed) : Char × Fed :=
  if isWhitespace ch then
    Fed.skipLoop f.read.1 f.read.2
  else
    (ch, f)
termination_by f.pending.length + (if isWhitespace ch then 1 else 0)
decreasing_by
  rename_i h
  rw [if_pos h]
  obtain ⟨p, l⟩ := f
  cases p with
  | nil => simp [Fed.read, isWhitespace, eof]
  | cons o os =>
    cases o with
    | none =>
      simp [Fed.read, isWhitespace, eof]
      omega
    | some c =>
      simp only [Fed.read, List.length_cons]
      split <;> omega

/-- Method `Scan` over a reader whose reads may fail: the body of
`Scanner.Scan`, word for word. -/
def Fed.Scan (f : Fed) : Token × String × Fed :=
  let r := Fed.skipLoop f.read.1 f.read.2
  let ch := r.1
  let f := r.2
  if isLetter ch then
    let i := f.unread.scanIdent
    (IDENT, i.1, i.2)
  else if isNumber ch then
    let n := f.unread.scanNumber
    (VERSION, n.1, n.2)
  else if ch = eof then
    (EOF, "", f)
  else if ch = '>' then
    if f.read.1 = '=' then (MORE_THAN_EQ, ">=", f.read.2)
    else (MORE_THAN, ">", f.read.2.unread)
  else if ch = '<' then
    if f.read.1 = '=' then (LESS_THAN_EQ, "<=", f.read.2)
    else (LESS_THAN, "<", f.read.2.unread)
  else if ch = '=' then
    if f.read.1 = '=' then (EQUAL, "==", f.read.2)
    else (ILLEGAL, String.singleton ch, f.read.2.unread)
  else if ch = '!' then
    if f.read.1 = '=' then (NOT_EQ, "!=", f.read.2)
    else (ILLEGAL, String.singleton ch, f.read.2.unread)
  else if ch = ',' then
    (COMMA, ",", f)
  else if ch = '#' then
    let c := f.scanComment
    (COMMENT, c.1, c.2)
  else
    (ILLEGAL, String.singleton ch, f)

/-- The scanner `f` after `n` consecutive calls of `Scan`. -/
def Fed.after (f : Fed) : Nat → Fed
  | 0 => f
  | n + 1 => (f.after n).Scan.2.2

/-- The tokens returned by the first `n` calls of `Scan` on `f`. -/
def Fed.tokens (f : Fed) : Nat → List (Token × String)
  | 0 => []
  | n + 1 => (f.Scan.1, f.Scan.2.1) :: f.Scan.2.2.tokens n

/-- The scanner of the fixed-source model seen as one whose reads never fail
before the source is spent. -/
def Fed.ofScanner (s : Scanner) : Fed :=
  { pending := s.input.map some, last := s.last }

/-! ## Reader primitives -/

theorem read_nil (l : Option Char) :
    Scanner.read { input := [], last := l } = (eof, { input := [], last := none }) := rfl

theorem read_cons (c : Char) (cs : List Char) (l : Option Char) :
    Scanner.read { input := c :: cs, last := l } = (c, { input := cs, last := some c }) := rfl

theorem unread_none (inp : List Char) :
    Scanner.unread { input := inp, last := none } = { input := inp, last := none } := rfl

theorem unread_some (inp : List Char) (c : Char) :
    Scanner.unread { input := inp, last := some c } = { input := c :: inp, last := none } := rfl

/-- Reading and then unreading puts every pending rune back. -/
theorem unread_read (inp : List Char) (l : Option Char) :
    (Scanner.read { input := inp, last := l }).2.unread = { input := inp, last := none } := by
  cases inp <;> rfl

theorem push_data (buf : String) (c : Char) : buf.push c = String.mk (buf.data ++ [c]) := rfl

/-! ## Classifier facts -/

theorem isWhitespace_eof : isWhitespace eof = false := by decide

theorem isLetter_eof : isLetter eof = false := by decide

theorem isNumber_eof : isNumber eof = false := by decide

theorem isWhitespace_iff (c : Char) : isWhitespace c = true ↔ c = ' ' ∨ c = '\t' ∨ c = '\n' := by
  simp [isWhitespace, or_assoc]

theorem not_ws_of_letter {c : Char} (h : isLetter c = true) : isWhitespace c = false := by
  cases hw : isWhitespace c
  · rfl
  · rcases (isWhitespace_iff c).1 hw with h1 | h1 | h1 <;> subst h1 <;> revert h <;> decide

theorem not_ws_of_number {c : Char} (h : isNumber c = true) : isWhitespace c = false := by
  cases hw : isWhitespace c
  · rfl
  · rcases (isWhitespace_iff c).1 hw with h1 | h1 | h1 <;> subst h1 <;> revert h <;> decide

/-! ## The loops in closed form -/

theorem skipLoop_eq (inp : List Char) (l : Option Char) (ch : Char) :
    Scanner.skipLoop ch { input := inp, last := l } =
      if isWhitespace ch then
        Scanner.read { input := inp.dropWhile isWhitespace, last := none }
      else (ch, { input := inp, last := l }) := by
  induction inp generalizing ch l with
  | nil =>
    rw [Scanner.skipLoop]
    split
    · rw [read_nil, Scanner.skipLoop, if_neg (by simp [isWhitespace_eof])]
      rfl
    · rfl
  | cons c cs ih =>
    rw [Scanner.skipLoop]
    split
    · rw [read_cons, ih, List.dropWhile_cons]
      cases hc : isWhitespace c <;> simp [read_cons]
    · rfl

theorem scanIdentLoop_eq (inp : List Char) (l : Option Char) (ch : Char) (buf : String) :
    Scanner.scanIdentLoop ch buf { input := inp, last := l } =
      if isLetter ch then
        (String.mk (buf.data ++ ch :: inp.takeWhile isLetter),
          (Scanner.read { input := inp.dropWhile isLetter, last := none }).2)
      else (buf, { input := inp, last := l }) := by
  induction inp generalizing ch l buf with
  | nil =>
    rw [Scanner.scanIdentLoop]
    split
    · rw [read_nil, Scanner.scanIdentLoop, if_neg (by simp [isLetter_eof])]
      rfl
    · rfl
  | cons c cs ih =>
    rw [Scanner.scanIdentLoop]
    split
    · rw [read_cons, ih, List.dropWhile_cons, List.takeWhile_cons]
      cases hc : isLetter c <;> simp [read_cons, push_data]
    · rfl

theorem scanNumberLoop_eq (inp : List Char) (l : Option Char) (ch : Char) (buf : String) :
    Scanner.scanNumberLoop ch buf { input := inp, last := l } =
      if isNumber ch then
        (String.mk (buf.data ++ ch :: inp.takeWhile isNumber),
          (Scanner.read { input := inp.dropWhile isNumber, last := none }).2)
      else (buf, { input := inp, last := l }) := by
  induction inp generalizing ch l buf with
  | nil =>
    rw [Scanner.scanNumberLoop]
    split
    · rw [read_nil, Scanner.scanNumberLoop, if_neg (by simp [isNumber_eof])]
      rfl
    · rfl
  | cons c cs ih =>
    rw [Scanner.scanNumberLoop]
    split
    · rw [read_cons, ih, List.dropWhile_cons, List.takeWhile_cons]
      cases hc : isNumber c <;> simp [read_cons, push_data]
    · rfl

theorem scanCommentLoop_eq (inp : List Char) (l : Option Char) (ch : Char) (buf : String) :
    Scanner.scanCommentLoop ch buf { input := inp, last := l } =
      if inComment ch then
        (String.mk (buf.data ++ ch :: inp.takeWhile inComment),
          (Scanner.read { input := inp.dropWhile inComment, last := none }).2)
      else (buf, { input := inp, last := l }) := by
  induction inp generalizing ch l buf with
  | nil =>
    rw [Scanner.scanCommentLoop]
    split
    · rename_i h
      rw [read_nil, Scanner.scanCommentLoop, if_neg (by simp), if_pos (by simpa [inComment] using h)]
      rfl
    · rename_i h
      rw [if_neg (by simpa [inComment] using h)]
  | cons c cs ih =>
    rw [Scanner.scanCommentLoop]
    split
    · rename_i h
      have hch : inComment ch = true := by simpa [inComment] using h
      rw [read_cons, ih, List.dropWhile_cons, List.takeWhile_cons, if_pos hch]
      cases hc : inComment c <;> simp [read_cons, push_data]
    · rename_i h
      rw [if_neg (by simpa [inComment] using h)]

/-- The whitespace loop of `Scan` delivers the first rune that is not
whitespace, having consumed everything up to and including it. -/
theorem skip_read (s : Scanner) :
    Scanner.skipLoop s.read.1 s.read.2 =
      Scanner.read { input := s.input.dropWhile isWhitespace, last := none } := by
  obtain ⟨inp, l⟩ := s
  cases inp with
  | nil => rw [read_nil, skipLoop_eq, if_neg (by simp [isWhitespace_eof])]; rfl
  | cons c cs =>
    rw [read_cons, skipLoop_eq]
    simp only [List.dropWhile_cons]
    cases hc : isWhitespace c <;> simp [read_cons]

theorem scanIdent_eq (s : Scanner) :
    s.scanIdent =
      (String.mk (s.input.takeWhile isLetter),
        { input := s.input.dropWhile isLetter, last := none }) := by
  obtain ⟨inp, l⟩ := s
  unfold Scanner.scanIdent
  cases inp with
  | nil => simp [read_nil, scanIdentLoop_eq, isLetter_eof, unread_none]
  | cons c cs =>
    simp only [read_cons, scanIdentLoop_eq, List.takeWhile_cons, List.dropWhile_cons]
    cases hc : isLetter c <;> simp [unread_read, unread_some]

theorem scanNumber_eq (s : Scanner) :
    s.scanNumber =
      (String.mk (s.input.takeWhile isNumber),
        { input := s.input.dropWhile isNumber, last := none }) := by
  obtain ⟨inp, l⟩ := s
  unfold Scanner.scanNumber
  cases inp with
  | nil => simp [read_nil, scanNumberLoop_eq, isNumber_eof, unread_none]
  | cons c cs =>
    simp only [read_cons, scanNumberLoop_eq, List.takeWhile_cons, List.dropWhile_cons]
    cases hc : isNumber c <;> simp [unread_read, unread_some]

theorem scanComment_eq (s : Scanner) :
    s.scanComment =
      (String.mk (s.input.takeWhile inComment),
        (Scanner.read { input := s.input.dropWhile inComment, last := none }).2) := by
  obtain ⟨inp, l⟩ := s
  unfold Scanner.scanComment
  cases inp with
  | nil => simp [read_nil, scanCommentLoop_eq, inComment]
  | cons c cs =>
    simp only [read_cons, scanCommentLoop_eq, List.takeWhile_cons, List.dropWhile_cons]
    cases hc : inComment c <;> simp [read_cons]

/-! ## `Scan` in closed form -/

/-- With nothing but whitespace left, `Scan` answers `EOF`. -/
theorem Scan_of_drop_nil (s : Scanner) (h : s.input.dropWhile isWhitespace = []) :
    s.Scan = (EOF, "", { input := [], last := none }) := by
  unfold Scanner.Scan
  simp only [skip_read, h, read_nil]
  simp [isLetter_eof, isNumber_eof]

/-- With `c` the first rune that is not whitespace and `cs` what follows it,
`Scan` dispatches on `c`. -/
theorem Scan_of_drop_cons (s : Scanner) (c : Char) (cs : List Char)
    (h : s.input.dropWhile isWhitespace = c :: cs) :
    s.Scan =
      if isLetter c then
        (IDENT, String.mk ((c :: cs).takeWhile isLetter),
          { input := (c :: cs).dropWhile isLetter, last := none })
      else if isNumber c then
        (VERSION, String.mk ((c :: cs).takeWhile isNumber),
          { input := (c :: cs).dropWhile isNumber, last := none })
      else if c = eof then (EOF, "", { input := cs, last := some c })
      else if c = '>' then
        if cs.head? = some '=' then (MORE_THAN_EQ, ">=", { input := cs.tail, last := some '=' })
        else (MORE_THAN, ">", { input := cs, last := none })
      else if c = '<' then
        if cs.head? = some '=' then (LESS_THAN_EQ, "<=", { input := cs.tail, last := some '=' })
        else (LESS_THAN, "<", { input := cs, last := none })
      else if c = '=' then
        if cs.head? = some '=' then (EQUAL, "==", { input := cs.tail, last := some '=' })
        else (ILLEGAL, "=", { input := cs, last := none })
      else if c = '!' then
        if cs.head? = some '=' then (NOT_EQ, "!=", { input := cs.tail, last := some '=' })
        else (ILLEGAL, "!", { input := cs, last := none })
      else if c = ',' then (COMMA, ",", { input := cs, last := some c })
      else if c = '#' then
        (COMMENT, String.mk (cs.takeWhile inComment),
          (Scanner.read { input := cs.dropWhile inComment, last := none }).2)
      else (ILLEGAL, String.singleton c, { input := cs, last := some c }) := by
  unfold Scanner.Scan
  simp only [skip_read, h, read_cons, scanIdent_eq, scanNumber_eq, scanComment_eq, unread_some,
    unread_read]
  have key : ∀ (l : Option Char),
      ((Scanner.read { input := cs, last := l }).1 = '=' ↔ cs.head? = some '=') ∧
      ((Scanner.read { input := cs, last := l }).1 = '=' →
        (Scanner.read { input := cs, last := l }).2 = { input := cs.tail, last := some '=' }) := by
    intro l
    cases cs with
    | nil => simp [read_nil, eof]
    | cons d ds =>
      simp only [read_cons, List.head?_cons, Option.some.injEq, List.tail_cons, true_and]
      intro hd
      rw [hd]
  by_cases h1 : isLetter c = true
  · simp [h1]
  by_cases h2 : isNumber c = true
  · simp [h1, h2]
  by_cases h3 : c = eof
  · simp [h1, h2, h3]
  simp only [h1, h2, h3, if_false, Bool.false_eq_true]
  by_cases h4 : c = '>'
  · by_cases h5 : cs.head? = some '='
    · simp [h4, h5, (key (some '>')).1.2 h5, (key (some '>')).2 ((key (some '>')).1.2 h5)]
    · simp [h4, h5, mt (key (some '>')).1.1 h5]
  by_cases h6 : c = '<'
  · by_cases h5 : cs.head? = some '='
    · simp [h6, h5, (key (some '<')).1.2 h5, (key (some '<')).2 ((key (some '<')).1.2 h5)]
    · simp [h6, h5, mt (key (some '<')).1.1 h5]
  by_cases h7 : c = '='
  · by_cases h5 : cs.head? = some '='
    · simp [h7, h5, (key (some '=')).1.2 h5, (key (some '=')).2 ((key (some '=')).1.2 h5)]
    · simp [h7, h5, mt (key (some '=')).1.1 h5]
      rfl
  by_cases h8 : c = '!'
  · by_cases h5 : cs.head? = some '='
    · simp [h8, h5, (key (some '!')).1.2 h5, (key (some '!')).2 ((key (some '!')).1.2 h5)]
    · simp [h8, h5, mt (key (some '!')).1.1 h5]
      rfl
  simp [h4, h6, h7, h8]

/-! ## Shared facts about `Scan` -/

theorem dropWhile_ws_append (w rest : List Char) (hw : ∀ x ∈ w, isWhitespace x = true) :
    (w ++ rest).dropWhile isWhitespace = rest.dropWhile isWhitespace := by
  induction w with
  | nil => rfl
  | cons a as ih =>
    have ha : isWhitespace a = true := hw a (List.mem_cons_self a as)
    rw [List.cons_append, List.dropWhile_cons, if_pos ha]
    exact ih (fun x hx => hw x (List.mem_cons_of_mem a hx))

/-- Leading whitespace `w` in front of a rune `c` that is not whitespace. -/
theorem dropWhile_ws_cons (w : List Char) (c : Char) (cs : List Char)
    (hw : ∀ x ∈ w, isWhitespace x = true) (hc : isWhitespace c = false) :
    (w ++ c :: cs).dropWhile isWhitespace = c :: cs := by
  rw [dropWhile_ws_append w _ hw, List.dropWhile_cons, if_neg (by simp [hc])]

theorem read_input (l : List Char) (x : Option Char) :
    (Scanner.read { input := l, last := x }).2.input = l.tail := by
  cases l <;> rfl

/-- On the exhausted reader `Scan` answers `EOF` and changes nothing. -/
theorem Scan_exhausted :
    Scanner.Scan { input := [], last := none } = (EOF, "", { input := [], last := none }) :=
  Scan_of_drop_nil _ rfl

theorem after_succ (s : Scanner) (n : Nat) : s.after (n + 1) = s.Scan.2.2.after n := by
  induction n with
  | zero => rfl
  | succ n ih =>
    show ((s.after (n + 1)).Scan).2.2 = ((s.Scan.2.2.after n).Scan).2.2
    rw [ih]

theorem after_add (s : Scanner) (k m : Nat) : s.after (k + m) = (s.after k).after m := by
  induction m with
  | zero => rfl
  | succ m ih =>
    show ((s.after (k + m)).Scan).2.2 = (((s.after k).after m).Scan).2.2
    rw [ih]

/-- What `Scan` leaves unread is a suffix of what followed the first rune
that is not whitespace. -/
theorem Scan_rest_suffix (s : Scanner) (c : Char) (cs : List Char)
    (h : s.input.dropWhile isWhitespace = c :: cs) : s.Scan.2.2.input <:+ cs := by
  rw [Scan_of_drop_cons s c cs h]
  have hl : ∀ p : Char → Bool, p c = true → (c :: cs).dropWhile p <:+ cs := by
    intro p hp
    rw [List.dropWhile_cons, if_pos hp]
    exact List.dropWhile_suffix _
  have hcm : (Scanner.read { input := cs.dropWhile inComment, last := none }).2.input <:+ cs := by
    rw [read_input]
    exact (List.tail_suffix _).trans (List.dropWhile_suffix _)
  repeat' split
  all_goals first
    | exact List.suffix_refl _
    | exact List.tail_suffix _
    | exact hcm
    | exact hl _ (by assumption)

/-- Forward-only: `Scan` never moves backwards, and it moves forwards whenever a rune is
left to read. -/
theorem Scan_input (s : Scanner) :
    s.Scan.2.2.input <:+ s.input ∧
      (s.input ≠ [] → s.Scan.2.2.input.length < s.input.length) := by
  cases h : s.input.dropWhile isWhitespace with
  | nil =>
    rw [Scan_of_drop_nil s h]
    refine ⟨List.nil_suffix, fun hne => ?_⟩
    exact List.length_pos_of_ne_nil hne
  | cons c cs =>
    have h1 : s.Scan.2.2.input <:+ cs := Scan_rest_suffix s c cs h
    have h2 : (c :: cs) <:+ s.input := h ▸ List.dropWhile_suffix _
    refine ⟨h1.trans ((List.suffix_cons c cs).trans h2), fun _ => ?_⟩
    have l1 := h1.length_le
    have l2 := h2.length_le
    simp only [List.length_cons] at l2
    omega

theorem char_le_iff (a b : Char) : a ≤ b ↔ a.toNat ≤ b.toNat := by
  rfl

theorem char_eq_iff (a b : Char) : a = b ↔ a.toNat = b.toNat := by
  constructor
  · intro h; rw [h]
  · intro h
    apply Char.ext
    apply UInt32.ext
    exact h

theorem isLetter_iff (c : Char) : isLetter c = true ↔
    (97 ≤ c.toNat ∧ c.toNat ≤ 122) ∨ (65 ≤ c.toNat ∧ c.toNat ≤ 90) := by
  simp only [isLetter, Bool.or_eq_true, Bool.and_eq_true, decide_eq_true_eq, ge_iff_le,
    char_le_iff]
  rfl

theorem isNumber_iff (c : Char) : isNumber c = true ↔
    (48 ≤ c.toNat ∧ c.toNat ≤ 57) ∨ c.toNat = 46 := by
  simp only [isNumber, Bool.or_eq_true, Bool.and_eq_true, decide_eq_true_eq, ge_iff_le,
    char_le_iff, beq_iff_eq, char_eq_iff]
  rfl

theorem not_letter_of_number {c : Char} (h : isNumber c = true) : isLetter c = false := by
  cases hl : isLetter c
  · rfl
  · rw [isLetter_iff] at hl
    rw [isNumber_iff] at h
    omega

/-! ## `Scan` by first significant rune -/

theorem Scan_letter (s : Scanner) (c : Char) (cs : List Char)
    (h : s.input.dropWhile isWhitespace = c :: cs) (hc : isLetter c = true) :
    s.Scan = (IDENT, String.mk ((c :: cs).takeWhile isLetter),
      { input := (c :: cs).dropWhile isLetter, last := none }) := by
  rw [Scan_of_drop_cons s c cs h, if_pos hc]

theorem Scan_number (s : Scanner) (c : Char) (cs : List Char)
    (h : s.input.dropWhile isWhitespace = c :: cs) (hc : isNumber c = true) :
    s.Scan = (VERSION, String.mk ((c :: cs).takeWhile isNumber),
      { input := (c :: cs).dropWhile isNumber, last := none }) := by
  rw [Scan_of_drop_cons s c cs h, if_neg (by simp [not_letter_of_number hc]), if_pos hc]

/-- The dispatch of `Scan` once `c` is known to be neither a letter, nor a
digit or period, nor `eof`: the `switch` on the operator runes. -/
theorem Scan_switch (s : Scanner) (c : Char) (cs : List Char)
    (h : s.input.dropWhile isWhitespace = c :: cs)
    (hl : isLetter c = false) (hn : isNumber c = false) (he : c ≠ eof) :
    s.Scan =
      if c = '>' then
        if cs.head? = some '=' then (MORE_THAN_EQ, ">=", { input := cs.tail, last := some '=' })
        else (MORE_THAN, ">", { input := cs, last := none })
      else if c = '<' then
        if cs.head? = some '=' then (LESS_THAN_EQ, "<=", { input := cs.tail, last := some '=' })
        else (LESS_THAN, "<", { input := cs, last := none })
      else if c = '=' then
        if cs.head? = some '=' then (EQUAL, "==", { input := cs.tail, last := some '=' })
        else (ILLEGAL, "=", { input := cs, last := none })
      else if c = '!' then
        if cs.head? = some '=' then (NOT_EQ, "!=", { input := cs.tail, last := some '=' })
        else (ILLEGAL, "!", { input := cs, last := none })
      else if c = ',' then (COMMA, ",", { input := cs, last := some c })
      else if c = '#' then
        (COMMENT, String.mk (cs.takeWhile inComment),
          (Scanner.read { input := cs.dropWhile inComment, last := none }).2)
      else (ILLEGAL, String.singleton c, { input := cs, last := some c }) := by
  rw [Scan_of_drop_cons s c cs h, if_neg (by simp [hl]), if_neg (by simp [hn]), if_neg he]

theorem Scan_gt (s : Scanner) (cs : List Char)
    (h : s.input.dropWhile isWhitespace = '>' :: cs) :
    s.Scan =
      if cs.head? = some '=' then (MORE_THAN_EQ, ">=", { input := cs.tail, last := some '=' })
      else (MORE_THAN, ">", { input := cs, last := none }) := by
  rw [Scan_switch s _ cs h (by decide) (by decide) (by decide), if_pos rfl]

theorem Scan_lt (s : Scanner) (cs : List Char)
    (h : s.input.dropWhile isWhitespace = '<' :: cs) :
    s.Scan =
      if cs.head? = some '=' then (LESS_THAN_EQ, "<=", { input := cs.tail, last := some '=' })
      else (LESS_THAN, "<", { input := cs, last := none }) := by
  rw [Scan_switch s _ cs h (by decide) (by decide) (by decide),
    if_neg (show ¬ ('<' = '>') by decide), if_pos rfl]

theorem Scan_equal (s : Scanner) (cs : List Char)
    (h : s.input.dropWhile isWhitespace = '=' :: cs) :
    s.Scan =
      if cs.head? = some '=' then (EQUAL, "==", { input := cs.tail, last := some '=' })
      else (ILLEGAL, "=", { input := cs, last := none }) := by
  rw [Scan_switch s _ cs h (by decide) (by decide) (by decide),
    if_neg (show ¬ ('=' = '>') by decide), if_neg (show ¬ ('=' = '<') by decide), if_pos rfl]

theorem Scan_bang (s : Scanner) (cs : List Char)
    (h : s.input.dropWhile isWhitespace = '!' :: cs) :
    s.Scan =
      if cs.head? = some '=' then (NOT_EQ, "!=", { input := cs.tail, last := some '=' })
      else (ILLEGAL, "!", { input := cs, last := none }) := by
  rw [Scan_switch s _ cs h (by decide) (by decide) (by decide),
    if_neg (show ¬ ('!' = '>') by decide), if_neg (show ¬ ('!' = '<') by decide),
    if_neg (show ¬ ('!' = '=') by decide), if_pos rfl]

theorem Scan_comma (s : Scanner) (cs : List Char)
    (h : s.input.dropWhile isWhitespace = ',' :: cs) :
    s.Scan = (COMMA, ",", { input := cs, last := some ',' }) := by
  rw [Scan_switch s _ cs h (by decide) (by decide) (by decide),
    if_neg (show ¬ (',' = '>') by decide), if_neg (show ¬ (',' = '<') by decide),
    if_neg (show ¬ (',' = '=') by decide), if_neg (show ¬ (',' = '!') by decide), if_pos rfl]

theorem Scan_hash (s : Scanner) (cs : List Char)
    (h : s.input.dropWhile isWhitespace = '#' :: cs) :
    s.Scan = (COMMENT, String.mk (cs.takeWhile inComment),
      (Scanner.read { input := cs.dropWhile inComment, last := none }).2) := by
  rw [Scan_switch s _ cs h (by decide) (by decide) (by decide),
    if_neg (show ¬ ('#' = '>') by decide), if_neg (show ¬ ('#' = '<') by decide),
    if_neg (show ¬ ('#' = '=') by decide), if_neg (show ¬ ('#' = '!') by decide),
    if_neg (show ¬ ('#' = ',') by decide), if_pos rfl]

/-- A significant rune other than `eof` never yields the kind `EOF`. -/
theorem Scan_tok_ne_eof (s : Scanner) (c : Char) (cs : List Char)
    (h : s.input.dropWhile isWhitespace = c :: cs) (hc : c ≠ eof) : s.Scan.1 ≠ EOF := by
  rw [Scan_of_drop_cons s c cs h]
  repeat' split
  all_goals first
    | exact absurd (by assumption) hc
    | exact fun e => Token.noConfusion e

/-- A call that returns `EOF` on input free of U+0000 has exhausted the reader. -/
theorem Scan_eof_state (s : Scanner) (hnul : eof ∉ s.input) (h : s.Scan.1 = EOF) :
    s.Scan = (EOF, "", { input := [], last := none }) := by
  cases hd : s.input.dropWhile isWhitespace with
  | nil => exact Scan_of_drop_nil s hd
  | cons c cs =>
    have hmem : c ∈ s.input :=
      (List.dropWhile_suffix isWhitespace).subset (hd ▸ List.mem_cons_self c cs)
    have hc : c ≠ eof := fun e => hnul (e ▸ hmem)
    exact absurd h (Scan_tok_ne_eof s c cs hd hc)

theorem after_exhausted (m : Nat) :
    Scanner.after { input := [], last := none } m = { input := [], last := none } := by
  induction m with
  | zero => rfl
  | succ m ih =>
    show ((Scanner.after { input := [], last := none } m).Scan).2.2 = _
    rw [ih, Scan_exhausted]

theorem after_suffix (s : Scanner) (k : Nat) : (s.after k).input <:+ s.input := by
  induction k with
  | zero => exact List.suffix_refl _
  | succ k ih => exact (Scan_input (s.after k)).1.trans ih

/-! ## Failed reads and `EOF` -/

/-- The whitespace loop stops at once on `eof`. -/
theorem fed_skipLoop_eof (f : Fed) : Fed.skipLoop eof f = (eof, f) := by
  rw [Fed.skipLoop]
  exact if_neg (by rw [isWhitespace_eof]; exact Bool.false_ne_true)

theorem fed_Scan_nil (l : Option Char) :
    Fed.Scan { pending := [], last := l } = (EOF, "", { pending := [], last := none }) := by
  unfold Fed.Scan
  simp only [Fed.read, fed_skipLoop_eof]
  simp [isLetter_eof, isNumber_eof]

/-- A first read that fails makes `Scan` return `(EOF, "")`, whatever the
source delivers afterwards; the failure is the only outcome consumed. -/
theorem fed_Scan_fail (rest : List (Option Char)) (l : Option Char) :
    Fed.Scan { pending := none :: rest, last := l } =
      (EOF, "", { pending := rest, last := none }) := by
  unfold Fed.Scan
  simp only [Fed.read, fed_skipLoop_eof]
  simp [isLetter_eof, isNumber_eof]

theorem fed_after_succ (f : Fed) (n : Nat) : f.after (n + 1) = f.Scan.2.2.after n := by
  induction n with
  | zero => rfl
  | succ n ih =>
    show ((f.after (n + 1)).Scan).2.2 = ((f.Scan.2.2.after n).Scan).2.2
    rw [ih]

theorem fed_after_add (f : Fed) (k m : Nat) : f.after (k + m) = (f.after k).after m := by
  induction m with
  | zero => rfl
  | succ m ih =>
    show ((f.after (k + m)).Scan).2.2 = (((f.after k).after m).Scan).2.2
    rw [ih]

/-- While the reads fail, each call of `Scan` returns `(EOF, "")` and uses up
one failed read. -/
theorem fed_fail_run (m : Nat) : ∀ (p : List (Option Char)) (l : Option Char),
    (∀ o ∈ p.take (m + 1), o = none) →
    (Fed.after { pending := p, last := l } m).Scan =
      (EOF, "", { pending := p.drop (m + 1), last := none }) := by
  induction m with
  | zero =>
    intro p l h
    show Fed.Scan { pending := p, last := l } = _
    cases p with
    | nil => exact fed_Scan_nil l
    | cons o os =>
      have ho : o = none := h o (by simp)
      rw [ho]
      exact fed_Scan_fail os l
  | succ m ih =>
    intro p l h
    rw [fed_after_succ]
    cases p with
    | nil =>
      rw [fed_Scan_nil]
      exact ih [] none (by simp)
    | cons o os =>
      have ho : o = none := h o (by simp)
      rw [ho, fed_Scan_fail]
      exact ih os none (fun x hx => h x (by
        rw [List.take_succ_cons]
        exact List.mem_cons_of_mem _ hx))

theorem fed_read_last (f : Fed) : f.read.2.last = none ∨ f.read.2.last = some f.read.1 := by
  obtain ⟨p, l⟩ := f
  cases p with
  | nil => exact Or.inl rfl
  | cons o os =>
    cases o with
    | none => exact Or.inl rfl
    | some c => exact Or.inr rfl

/-- The whitespace loop hands on the rune read last together with the reader
as that read left it. -/
theorem fed_skipLoop_last (p : List (Option Char)) : ∀ (l : Option Char) (ch : Char),
    (l = none ∨ l = some ch) →
    (Fed.skipLoop ch { pending := p, last := l }).2.last = none ∨
      (Fed.skipLoop ch { pending := p, last := l }).2.last =
        some (Fed.skipLoop ch { pending := p, last := l }).1 := by
  induction p with
  | nil =>
    intro l ch h
    rw [Fed.skipLoop]
    split
    · have e : (Fed.read { pending := [], last := l }) =
          (eof, { pending := [], last := none }) := rfl
      rw [e, fed_skipLoop_eof]
      exact Or.inl rfl
    · exact h
  | cons o os ih =>
    intro l ch h
    rw [Fed.skipLoop]
    split
    · cases o with
      | none => exact ih none eof (Or.inl rfl)
      | some c => exact ih (some c) c (Or.inr rfl)
    · exact h

/-- A call that returns `EOF` ended on a failed read or on the rune U+0000. -/
theorem fed_Scan_eof_last (f : Fed) (h : f.Scan.1 = EOF) :
    f.Scan.2.2.last = none ∨ f.Scan.2.2.last = some eof := by
  have hl := fed_skipLoop_last f.read.2.pending f.read.2.last f.read.1 (fed_read_last f)
  unfold Fed.Scan at h ⊢
  have e : ({ pending := f.read.2.pending, last := f.read.2.last } : Fed) = f.read.2 := rfl
  rw [e] at hl
  generalize Fed.skipLoop f.read.1 f.read.2 = r at h hl ⊢
  obtain ⟨ch, g⟩ := r
  simp only [] at h hl ⊢
  by_cases h1 : isLetter ch = true
  · simp [h1] at h
  by_cases h2 : isNumber ch = true
  · simp [h1, h2] at h
  by_cases h3 : ch = eof
  · simp only [h1, h2, h3, if_true, if_false] at h ⊢
    rw [h3] at hl
    simpa [isLetter_eof, isNumber_eof] using hl
  · exfalso
    simp only [h1, h2, h3, if_false] at h
    repeat' split at h
    all_goals exact Token.noConfusion h

theorem fed_read_of (s : Scanner) : (Fed.ofScanner s).read = (s.read.1, Fed.ofScanner s.read.2) := by
  obtain ⟨inp, l⟩ := s
  cases inp <;> rfl

theorem fed_unread_of (s : Scanner) : (Fed.ofScanner s).unread = Fed.ofScanner s.unread := by
  obtain ⟨inp, l⟩ := s
  cases l <;> rfl

theorem fed_skipLoop_of (inp : List Char) (l : Option Char) (ch : Char) :
    Fed.skipLoop ch (Fed.ofScanner { input := inp, last := l }) =
      ((Scanner.skipLoop ch { input := inp, last := l }).1,
        Fed.ofScanner (Scanner.skipLoop ch { input := inp, last := l }).2) := by
  induction inp generalizing ch l with
  | nil =>
    rw [Fed.skipLoop, Scanner.skipLoop]
    split
    · rw [fed_read_of, read_nil, Fed.skipLoop, Scanner.skipLoop,
        if_neg (show ¬ (isWhitespace eof = true) by simp [isWhitespace_eof]),
        if_neg (show ¬ (isWhitespace eof = true) by simp [isWhitespace_eof])]
    · rfl
  | cons c cs ih =>
    rw [Fed.skipLoop, Scanner.skipLoop]
    split
    · rw [fed_read_of, read_cons, ih]
    · rfl

theorem fed_scanIdentLoop_of (inp : List Char) (l : Option Char) (ch : Char) (buf : String) :
    Fed.scanIdentLoop ch buf (Fed.ofScanner { input := inp, last := l }) =
      ((Scanner.scanIdentLoop ch buf { input := inp, last := l }).1,
        Fed.ofScanner (Scanner.scanIdentLoop ch buf { input := inp, last := l }).2) := by
  induction inp generalizing ch l buf with
  | nil =>
    rw [Fed.scanIdentLoop, Scanner.scanIdentLoop]
    split
    · rw [fed_read_of, read_nil, Fed.scanIdentLoop, Scanner.scanIdentLoop,
        if_neg (show ¬ (isLetter eof = true) by simp [isLetter_eof, isNumber_eof]),
        if_neg (show ¬ (isLetter eof = true) by simp [isLetter_eof, isNumber_eof])]
    · rfl
  | cons c cs ih =>
    rw [Fed.scanIdentLoop, Scanner.scanIdentLoop]
    split
    · rw [fed_read_of, read_cons, ih]
    · rfl

theorem fed_scanNumberLoop_of (inp : List Char) (l : Option Char) (ch : Char) (buf : String) :
    Fed.scanNumberLoop ch buf (Fed.ofScanner { input := inp, last := l }) =
      ((Scanner.scanNumberLoop ch buf { input := inp, last := l }).1,
        Fed.ofScanner (Scanner.scanNumberLoop ch buf { input := inp, last := l }).2) := by
  induction inp generalizing ch l buf with
  | nil =>
    rw [Fed.scanNumberLoop, Scanner.scanNumberLoop]
    split
    · rw [fed_read_of, read_nil, Fed.scanNumberLoop, Scanner.scanNumberLoop,
        if_neg (show ¬ (isNumber eof = true) by simp [isLetter_eof, isNumber_eof]),
        if_neg (show ¬ (isNumber eof = true) by simp [isLetter_eof, isNumber_eof])]
    · rfl
  | cons c cs ih =>
    rw [Fed.scanNumberLoop, Scanner.scanNumberLoop]
    split
    · rw [fed_read_of, read_cons, ih]
    · rfl

theorem fed_scanCommentLoop_of (inp : List Char) (l : Option Char) (ch : Char) (buf : String) :
    Fed.scanCommentLoop ch buf (Fed.ofScanner { input := inp, last := l }) =
      ((Scanner.scanCommentLoop ch buf { input := inp, last := l }).1,
        Fed.ofScanner (Scanner.scanCommentLoop ch buf { input := inp, last := l }).2) := by
  induction inp generalizing ch l buf with
  | nil =>
    rw [Fed.scanCommentLoop, Scanner.scanCommentLoop]
    split
    · rw [fed_read_of, read_nil, Fed.scanCommentLoop, Scanner.scanCommentLoop,
        if_neg (show ¬ (eof ≠ '\n' ∧ eof ≠ eof) by simp [isLetter_eof, isNumber_eof]),
        if_neg (show ¬ (eof ≠ '\n' ∧ eof ≠ eof) by simp [isLetter_eof, isNumber_eof])]
    · rfl
  | cons c cs ih =>
    rw [Fed.scanCommentLoop, Scanner.scanCommentLoop]
    split
    · rw [fed_read_of, read_cons, ih]
    · rfl


theorem fed_scanIdentLoop_at (s : Scanner) (ch : Char) (buf : String) :
    Fed.scanIdentLoop ch buf (Fed.ofScanner s) =
      ((Scanner.scanIdentLoop ch buf s).1, Fed.ofScanner (Scanner.scanIdentLoop ch buf s).2) := by
  obtain ⟨inp, l⟩ := s
  exact fed_scanIdentLoop_of inp l ch buf

theorem fed_scanNumberLoop_at (s : Scanner) (ch : Char) (buf : String) :
    Fed.scanNumberLoop ch buf (Fed.ofScanner s) =
      ((Scanner.scanNumberLoop ch buf s).1, Fed.ofScanner (Scanner.scanNumberLoop ch buf s).2) := by
  obtain ⟨inp, l⟩ := s
  exact fed_scanNumberLoop_of inp l ch buf

theorem fed_scanCommentLoop_at (s : Scanner) (ch : Char) (buf : String) :
    Fed.scanCommentLoop ch buf (Fed.ofScanner s) =
      ((Scanner.scanCommentLoop ch buf s).1, Fed.ofScanner (Scanner.scanCommentLoop ch buf s).2) := by
  obtain ⟨inp, l⟩ := s
  exact fed_scanCommentLoop_of inp l ch buf

theorem fed_skipLoop_at (s : Scanner) (ch : Char) :
    Fed.skipLoop ch (Fed.ofScanner s) =
      ((Scanner.skipLoop ch s).1, Fed.ofScanner (Scanner.skipLoop ch s).2) := by
  obtain ⟨inp, l⟩ := s
  exact fed_skipLoop_of inp l ch

theorem fed_scanIdent_of (s : Scanner) :
    (Fed.ofScanner s).scanIdent = (s.scanIdent.1, Fed.ofScanner s.scanIdent.2) := by
  unfold Fed.scanIdent Scanner.scanIdent
  simp only [fed_read_of, fed_scanIdentLoop_at, fed_unread_of]

theorem fed_scanNumber_of (s : Scanner) :
    (Fed.ofScanner s).scanNumber = (s.scanNumber.1, Fed.ofScanner s.scanNumber.2) := by
  unfold Fed.scanNumber Scanner.scanNumber
  simp only [fed_read_of, fed_scanNumberLoop_at, fed_unread_of]

theorem fed_scanComment_of (s : Scanner) :
    (Fed.ofScanner s).scanComment = (s.scanComment.1, Fed.ofScanner s.scanComment.2) := by
  unfold Fed.scanComment Scanner.scanComment
  simp only [fed_read_of, fed_scanCommentLoop_at]

/-- On a source that delivers its runes without a failed read in between, the
scanner over the failing reader is the scanner of the fixed-source model. -/
theorem fed_Scan_of (s : Scanner) :
    (Fed.ofScanner s).Scan = (s.Scan.1, s.Scan.2.1, Fed.ofScanner s.Scan.2.2) := by
  unfold Fed.Scan Scanner.Scan
  simp only [fed_read_of, fed_skipLoop_at]
  generalize Scanner.skipLoop s.read.1 s.read.2 = r
  obtain ⟨ch, t⟩ := r
  simp only [fed_unread_of, fed_scanIdent_of, fed_scanNumber_of, fed_scanComment_of, fed_read_of]
  by_cases h1 : isLetter ch = true
  · simp [h1]
  by_cases h2 : isNumber ch = true
  · simp [h1, h2]
  simp only [h1, h2, if_false]
  by_cases h3 : ch = eof
  · simp [h3]
  simp only [h3, if_false]
  by_cases h4 : ch = '>'
  · by_cases hq : t.read.1 = '='
    · simp [h4, hq]
    · simp [h4, hq]
  simp only [h4, if_false]
  by_cases h5 : ch = '<'
  · by_cases hq : t.read.1 = '='
    · simp [h5, hq]
    · simp [h5, hq]
  simp only [h5, if_false]
  by_cases h6 : ch = '='
  · by_cases hq : t.read.1 = '='
    · simp [h6, hq]
    · simp [h6, hq]
  simp only [h6, if_false]
  by_cases h7 : ch = '!'
  · by_cases hq : t.read.1 = '='
    · simp [h7, hq]
    · simp [h7, hq]
  simp only [h7, if_false]
  by_cases h8 : ch = ','
  · simp [h8]
  by_cases h9 : ch = '#'
  · simp [h9]
  · simp [h8, h9]

theorem fed_after_of (s : Scanner) (n : Nat) :
    (Fed.ofScanner s).after n = Fed.ofScanner (s.after n) := by
  induction n with
  | zero => rfl
  | succ n ih =>
    show ((Fed.ofScanner s).after n).Scan.2.2 = Fed.ofScanner (s.after n).Scan.2.2
    rw [ih, fed_Scan_of]

theorem fed_fail_run_at (m : Nat) (f : Fed) (h : ∀ o ∈ f.pending.take (m + 1), o = none) :
    (f.after m).Scan = (EOF, "", { pending := f.pending.drop (m + 1), last := none }) := by
  obtain ⟨p, l⟩ := f
  exact fed_fail_run m p l h

/-- A source that is a fixed sequence of runes without U+0000, delivered
without a failed read in between, is spent once a call has returned `EOF`:
every read after that call fails. -/
theorem fed_fixed_source_spent (input : List Char) (hnul : eof ∉ input) (k : Nat)
    (hk : ((NewFed (input.map some)).after k).Scan.1 = EOF) :
    ((NewFed (input.map some)).after (k + 1)).pending = [] := by
  have e : NewFed (input.map some) = Fed.ofScanner (NewScanner input) := rfl
  rw [e, fed_after_of] at hk ⊢
  rw [fed_Scan_of] at hk
  have hfree : eof ∉ ((NewScanner input).after k).input :=
    fun hmem => hnul ((after_suffix (NewScanner input) k).subset hmem)
  have hs : (NewScanner input).after (k + 1) = { input := [], last := none } := by
    show (((NewScanner input).after k).Scan).2.2 = _
    rw [Scan_eof_state _ hfree hk]
  rw [hs]
  rfl

/-! ## Claims -/

/-- C1 (counterexample): on the input U+0000 followed by `a` the first call of
`Scan` returns the kind `EOF`, yet the next call on the same scanner returns
`(IDENT, "a")`: a returned `EOF` is not final when the input holds U+0000. -/
theorem scan_eof_not_final_counterexample :
    ((NewScanner [Char.ofNat 0, 'a']).after 0).Scan.1 = EOF ∧
      ((NewScanner [Char.ofNat 0, 'a']).after 1).Scan.1 = IDENT ∧
      ((NewScanner [Char.ofNat 0, 'a']).after 1).Scan.2.1 = "a" ∧
      ((NewScanner [Char.ofNat 0, 'a']).after 1).Scan.1 ≠ EOF := by
  have h0 : (NewScanner [Char.ofNat 0, 'a']).Scan = (EOF, "", { input := ['a'], last := some eof }) := by
    rw [Scan_of_drop_cons _ (Char.ofNat 0) ['a'] (by decide)]
    decide
  have h1 : Scanner.Scan { input := ['a'], last := some eof } =
      (IDENT, "a", { input := [], last := none }) := by
    rw [Scan_letter _ 'a' [] (by decide) (by decide)]
    decide
  have e1 : (NewScanner [Char.ofNat 0, 'a']).after 1 = { input := ['a'], last := some eof } := by
    show ((NewScanner [Char.ofNat 0, 'a']).Scan).2.2 = _
    rw [h0]
  rw [e1, h1]
  refine ⟨?_, rfl, rfl, by decide⟩
  show ((NewScanner [Char.ofNat 0, 'a']).Scan).1 = EOF
  rw [h0]

/-- Without any U+0000, a call on a file holding `ab` returns `(IDENT, "ab")`
and the next one `EOF`; once the file has grown by `cd`, the call after that
returns `(IDENT, "cd")`: the scanner keeps no end-of-input state of its own. -/
theorem scan_eof_then_more_input :
    (NewFed [some 'a', some 'b', none, none, some 'c', some 'd']).tokens 4 =
      [(IDENT, "ab"), (EOF, ""), (IDENT, "cd"), (EOF, "")] := by
  simp [Fed.tokens, Fed.Scan, Fed.skipLoop, Fed.scanIdent, Fed.scanIdentLoop, Fed.unread,
    Fed.read, NewFed, eof, isLetter, isNumber, isWhitespace]
  decide

/-- C1 (amended): for every source and every number `k` of prior calls, once a
call of `Scan` has returned the kind `EOF`, a later call (after `m` further
calls) returns `(EOF, "")` again provided the reads made after the `EOF` call
all fail up to and including its own, that is provided the reader delivers no
further rune.  Such a call consumes no rune, only the failed read, and leaves
the pending slot empty, which is how the `EOF` call left it unless it had
ended on a U+0000. -/
theorem scan_eof_idempotent (src : List (Option Char)) (k m : Nat)
    (hk : ((NewFed src).after k).Scan.1 = EOF)
    (hfail : ∀ o ∈ ((NewFed src).after (k + 1)).pending.take (m + 1), o = none) :
    ((NewFed src).after (k + 1 + m)).Scan.1 = EOF ∧
      ((NewFed src).after (k + 1 + m)).Scan.2.1 = "" ∧
      ((NewFed src).after (k + 1 + m)).Scan.2.2.pending =
        ((NewFed src).after (k + 1)).pending.drop (m + 1) ∧
      ((NewFed src).after (k + 1 + m)).Scan.2.2.pending.filterMap id =
        ((NewFed src).after (k + 1)).pending.filterMap id ∧
      ((NewFed src).after (k + 1 + m)).Scan.2.2.last = none ∧
      (((NewFed src).after (k + 1)).last = none ∨
        ((NewFed src).after (k + 1)).last = some eof) := by
  have hlast : ((NewFed src).after (k + 1)).last = none ∨
      ((NewFed src).after (k + 1)).last = some eof := fed_Scan_eof_last _ hk
  have hrun := fed_fail_run_at m ((NewFed src).after (k + 1)) hfail
  rw [← fed_after_add] at hrun
  rw [hrun]
  refine ⟨rfl, rfl, rfl, ?_, rfl, hlast⟩
  show (((NewFed src).after (k + 1)).pending.drop (m + 1)).filterMap id = _
  have hsplit := List.take_append_drop (m + 1) ((NewFed src).after (k + 1)).pending
  have hnone : (((NewFed src).after (k + 1)).pending.take (m + 1)).filterMap id = [] := by
    rw [List.filterMap_eq_nil_iff]
    intro o ho
    rw [hfail o ho]
    rfl
  conv_rhs => rw [← hsplit, List.filterMap_append, hnone, List.nil_append]

/-- C1 witness: `ab`, then three failed reads, then `c`.  The second call
returns `EOF`; the reads of the next two calls fail, and both return
`(EOF, "")` with `c` still to come. -/
theorem scan_eof_idempotent_witness :
    ((NewFed [some 'a', some 'b', none, none, none, none, some 'c']).after (1 + 1 + 1)).Scan.1
        = EOF ∧
      ((NewFed [some 'a', some 'b', none, none, none, none, some 'c']).after (1 + 1 + 1)).Scan.2.1
        = "" ∧
      ((NewFed [some 'a', some 'b', none, none, none, none, some 'c']).after
          (1 + 1 + 1)).Scan.2.2.pending =
        ((NewFed [some 'a', some 'b', none, none, none, none, some 'c']).after
          (1 + 1)).pending.drop (1 + 1) ∧
      ((NewFed [some 'a', some 'b', none, none, none, none, some 'c']).after
          (1 + 1 + 1)).Scan.2.2.pending.filterMap id =
        ((NewFed [some 'a', some 'b', none, none, none, none, some 'c']).after
          (1 + 1)).pending.filterMap id ∧
      ((NewFed [some 'a', some 'b', none, none, none, none, some 'c']).after
          (1 + 1 + 1)).Scan.2.2.last = none ∧
      (((NewFed [some 'a', some 'b', none, none, none, none, some 'c']).after (1 + 1)).last
          = none ∨
        ((NewFed [some 'a', some 'b', none, none, none, none, some 'c']).after (1 + 1)).last
          = some eof) :=
  scan_eof_idempotent [some 'a', some 'b', none, none, none, none, some 'c'] 1 1
    (by
      simp [Fed.after, Fed.Scan, Fed.skipLoop, Fed.scanIdent, Fed.scanIdentLoop, Fed.unread,
        Fed.read, NewFed, eof, isLetter, isNumber, isWhitespace])
    (by
      simp [Fed.after, Fed.Scan, Fed.skipLoop, Fed.scanIdent, Fed.scanIdentLoop, Fed.unread,
        Fed.read, NewFed, eof, isLetter, isNumber, isWhitespace])

/-- C2: when the first rune after leading whitespace `w` is a letter `c`,
`Scan` returns `IDENT` with the longest run of letters starting at `c`, the
unread input resumes at the first rune after that run (the lexeme followed by
the unread input is the input from `c` on, every rune of the lexeme is a
letter, the first unread rune is not), and when the run reaches the end of the
input the next call returns `(EOF, "")`. -/
theorem scan_ident_maximal_munch (s : Scanner) (w : List Char) (c : Char) (cs : List Char)
    (hin : s.input = w ++ c :: cs) (hw : ∀ x ∈ w, isWhitespace x = true)
    (hc : isLetter c = true) :
    s.Scan = (IDENT, String.mk ((c :: cs).takeWhile isLetter),
        { input := (c :: cs).dropWhile isLetter, last := none }) ∧
      s.Scan.2.1.data ++ s.Scan.2.2.input = c :: cs ∧
      (∀ x ∈ s.Scan.2.1.data, isLetter x = true) ∧
      (∀ d ∈ s.Scan.2.2.input.head?, isLetter d = false) ∧
      (s.Scan.2.2.input = [] → s.Scan.2.2.Scan.1 = EOF ∧ s.Scan.2.2.Scan.2.1 = "") := by
  have hd : s.input.dropWhile isWhitespace = c :: cs := by
    rw [hin]
    exact dropWhile_ws_cons w c cs hw (not_ws_of_letter hc)
  rw [Scan_letter s c cs hd hc]
  refine ⟨rfl, List.takeWhile_append_dropWhile _ _, fun x hx => List.mem_takeWhile_imp hx, ?_, ?_⟩
  · intro d hd
    have h1 : ((c :: cs).dropWhile isLetter).head? = some d := hd
    have h2 := List.head?_dropWhile_not isLetter (c :: cs)
    rw [h1] at h2
    simpa using h2
  · intro he
    have h1 : (c :: cs).dropWhile isLetter = [] := he
    rw [h1, Scan_exhausted]
    exact ⟨rfl, rfl⟩

/-- C2 witness: `"foo"` yields `(IDENT, "foo")` and then `EOF`. -/
theorem scan_ident_maximal_munch_witness :
    (NewScanner "foo".toList).Scan = (IDENT, "foo", { input := [], last := none }) ∧
      (NewScanner "foo".toList).Scan.2.2.Scan.1 = EOF ∧
      (NewScanner "foo".toList).Scan.2.2.Scan.2.1 = "" := by
  have h := scan_ident_maximal_munch (NewScanner "foo".toList) [] 'f' ['o', 'o'] rfl
    (by simp) (by decide)
  have e : (NewScanner "foo".toList).Scan = (IDENT, "foo", { input := [], last := none }) := by
    rw [h.1]
    decide
  exact ⟨e, h.2.2.2.2 (by rw [e])⟩

/-- C3: when the first rune after leading whitespace `w` is a digit or a
period `c`, `Scan` returns `VERSION` with the longest run of digits and periods
starting at `c`, whatever its shape, the unread input resumes at the first rune
after that run, and when the run reaches the end of the input the next call
returns `(EOF, "")`. -/
theorem scan_version_maximal_munch (s : Scanner) (w : List Char) (c : Char) (cs : List Char)
    (hin : s.input = w ++ c :: cs) (hw : ∀ x ∈ w, isWhitespace x = true)
    (hc : isNumber c = true) :
    s.Scan = (VERSION, String.mk ((c :: cs).takeWhile isNumber),
        { input := (c :: cs).dropWhile isNumber, last := none }) ∧
      s.Scan.2.1.data ++ s.Scan.2.2.input = c :: cs ∧
      (∀ x ∈ s.Scan.2.1.data, isNumber x = true) ∧
      (∀ d ∈ s.Scan.2.2.input.head?, isNumber d = false) ∧
      (s.Scan.2.2.input = [] → s.Scan.2.2.Scan.1 = EOF ∧ s.Scan.2.2.Scan.2.1 = "") := by
  have hd : s.input.dropWhile isWhitespace = c :: cs := by
    rw [hin]
    exact dropWhile_ws_cons w c cs hw (not_ws_of_number hc)
  rw [Scan_number s c cs hd hc]
  refine ⟨rfl, List.takeWhile_append_dropWhile _ _, fun x hx => List.mem_takeWhile_imp hx, ?_, ?_⟩
  · intro d hd
    have h1 : ((c :: cs).dropWhile isNumber).head? = some d := hd
    have h2 := List.head?_dropWhile_not isNumber (c :: cs)
    rw [h1] at h2
    simpa using h2
  · intro he
    have h1 : (c :: cs).dropWhile isNumber = [] := he
    rw [h1, Scan_exhausted]
    exact ⟨rfl, rfl⟩

/-- C3 witness: `"1.2.3"` yields `(VERSION, "1.2.3")` and then `EOF`; `".5"`
and `"1..2"` are single `VERSION` tokens as well. -/
theorem scan_version_maximal_munch_witness :
    (NewScanner "1.2.3".toList).Scan = (VERSION, "1.2.3", { input := [], last := none }) ∧
      (NewScanner "1.2.3".toList).Scan.2.2.Scan.1 = EOF ∧
      (NewScanner "1.2.3".toList).Scan.2.2.Scan.2.1 = "" ∧
      (NewScanner ".5".toList).Scan = (VERSION, ".5", { input := [], last := none }) ∧
      (NewScanner "1..2".toList).Scan = (VERSION, "1..2", { input := [], last := none }) := by
  have h := scan_version_maximal_munch (NewScanner "1.2.3".toList) [] '1' ['.', '2', '.', '3']
    rfl (by simp) (by decide)
  have e : (NewScanner "1.2.3".toList).Scan =
      (VERSION, "1.2.3", { input := [], last := none }) := by
    rw [h.1]
    decide
  have h5 := (scan_version_maximal_munch (NewScanner ".5".toList) [] '.' ['5']
    rfl (by simp) (by decide)).1
  have h2 := (scan_version_maximal_munch (NewScanner "1..2".toList) [] '1' ['.', '.', '2']
    rfl (by simp) (by decide)).1
  refine ⟨e, (h.2.2.2.2 (by rw [e])).1, (h.2.2.2.2 (by rw [e])).2, ?_, ?_⟩
  · rw [h5]
    decide
  · rw [h2]
    decide

/-- C4: after leading whitespace `w`, the runes `>=`, `<=`, `==` and `!=`
scan as `(MORE_THAN_EQ, ">=")`, `(LESS_THAN_EQ, "<=")`, `(EQUAL, "==")` and
`(NOT_EQ, "!=")`, the unread input being exactly what follows the two runes,
and `,` scans as `(COMMA, ",")`, the unread input being what follows it. -/
theorem scan_operators (s : Scanner) (w r : List Char)
    (hw : ∀ x ∈ w, isWhitespace x = true) :
    (s.input = w ++ '>' :: '=' :: r →
        s.Scan.1 = MORE_THAN_EQ ∧ s.Scan.2.1 = ">=" ∧ s.Scan.2.2.input = r) ∧
      (s.input = w ++ '<' :: '=' :: r →
        s.Scan.1 = LESS_THAN_EQ ∧ s.Scan.2.1 = "<=" ∧ s.Scan.2.2.input = r) ∧
      (s.input = w ++ '=' :: '=' :: r →
        s.Scan.1 = EQUAL ∧ s.Scan.2.1 = "==" ∧ s.Scan.2.2.input = r) ∧
      (s.input = w ++ '!' :: '=' :: r →
        s.Scan.1 = NOT_EQ ∧ s.Scan.2.1 = "!=" ∧ s.Scan.2.2.input = r) ∧
      (s.input = w ++ ',' :: r →
        s.Scan.1 = COMMA ∧ s.Scan.2.1 = "," ∧ s.Scan.2.2.input = r) := by
  have hd : ∀ (c : Char) (cs : List Char), isWhitespace c = false → s.input = w ++ c :: cs →
      s.input.dropWhile isWhitespace = c :: cs := by
    intro c cs hc hin
    rw [hin]
    exact dropWhile_ws_cons w c cs hw hc
  refine ⟨fun hin => ?_, fun hin => ?_, fun hin => ?_, fun hin => ?_, fun hin => ?_⟩
  · rw [Scan_gt s _ (hd _ _ (by decide) hin),
      if_pos (show ('=' :: r).head? = some '=' from rfl)]
    exact ⟨rfl, rfl, rfl⟩
  · rw [Scan_lt s _ (hd _ _ (by decide) hin),
      if_pos (show ('=' :: r).head? = some '=' from rfl)]
    exact ⟨rfl, rfl, rfl⟩
  · rw [Scan_equal s _ (hd _ _ (by decide) hin),
      if_pos (show ('=' :: r).head? = some '=' from rfl)]
    exact ⟨rfl, rfl, rfl⟩
  · rw [Scan_bang s _ (hd _ _ (by decide) hin),
      if_pos (show ('=' :: r).head? = some '=' from rfl)]
    exact ⟨rfl, rfl, rfl⟩
  · rw [Scan_comma s _ (hd _ _ (by decide) hin)]
    exact ⟨rfl, rfl, rfl⟩

/-- C4 witness: `">= <= > < == != ,"` yields `>=`, `<=`, `>`, `<`, `==`, `!=`,
`,` and then `EOF`, with the kinds of the table. -/
theorem scan_operators_witness :
    ((NewScanner ">= <= > < == != ,".toList).Scan.1 = MORE_THAN_EQ ∧
        (NewScanner ">= <= > < == != ,".toList).Scan.2.1 = ">=" ∧
        (NewScanner ">= <= > < == != ,".toList).Scan.2.2.input = " <= > < == != ,".toList) ∧
      (NewScanner ">= <= > < == != ,".toList).tokens 8 =
        [(MORE_THAN_EQ, ">="), (LESS_THAN_EQ, "<="), (MORE_THAN, ">"), (LESS_THAN, "<"),
          (EQUAL, "=="), (NOT_EQ, "!="), (COMMA, ","), (EOF, "")] :=
  ⟨(scan_operators (NewScanner ">= <= > < == != ,".toList) [] " <= > < == != ,".toList
      (by simp)).1 rfl, by
    simp [Scanner.tokens, Scanner.Scan, Scanner.skipLoop, Scanner.scanIdent,
      Scanner.scanIdentLoop, Scanner.scanNumber, Scanner.scanNumberLoop, Scanner.scanComment,
      Scanner.scanCommentLoop, Scanner.unread, Scanner.read, NewScanner, eof, isLetter,
      isNumber, isWhitespace]⟩

/-- C5: after leading whitespace `w`, a `>` (a `<`) that is not followed by
`=` scans as `(MORE_THAN, ">")` (as `(LESS_THAN, "<")`); the unread input is
exactly what followed it, so the rune after it, if any, is the one the next
read delivers, once. -/
theorem scan_angle_pushback (s : Scanner) (w : List Char) (c : Char) (rest : List Char)
    (hin : s.input = w ++ c :: rest) (hw : ∀ x ∈ w, isWhitespace x = true)
    (hc : c = '>' ∨ c = '<') (hne : rest.head? ≠ some '=') :
    (c = '>' → s.Scan.1 = MORE_THAN ∧ s.Scan.2.1 = ">") ∧
      (c = '<' → s.Scan.1 = LESS_THAN ∧ s.Scan.2.1 = "<") ∧
      s.Scan.2.2.input = rest ∧
      (∀ d ds, rest = d :: ds → s.Scan.2.2.read = (d, { input := ds, last := some d })) := by
  have hrd : ∀ (t : Scanner), t.input = rest →
      ∀ d ds, rest = d :: ds → t.read = (d, { input := ds, last := some d }) := by
    intro t ht d ds hr
    obtain ⟨inp, l⟩ := t
    have hi : inp = d :: ds := ht.trans hr
    rw [hi]
    rfl
  rcases hc with hc | hc
  · subst hc
    have hd : s.input.dropWhile isWhitespace = '>' :: rest := by
      rw [hin]
      exact dropWhile_ws_cons w _ rest hw (by decide)
    rw [Scan_gt s rest hd, if_neg hne]
    exact ⟨fun _ => ⟨rfl, rfl⟩, fun h => absurd h (by decide), rfl, hrd _ rfl⟩
  · subst hc
    have hd : s.input.dropWhile isWhitespace = '<' :: rest := by
      rw [hin]
      exact dropWhile_ws_cons w _ rest hw (by decide)
    rw [Scan_lt s rest hd, if_neg hne]
    exact ⟨fun h => absurd h (by decide), fun _ => ⟨rfl, rfl⟩, rfl, hrd _ rfl⟩

/-- C5 witness: `">x"` yields `(MORE_THAN, ">")`, `(IDENT, "x")` and `EOF`. -/
theorem scan_angle_pushback_witness :
    ((NewScanner ">x".toList).Scan.1 = MORE_THAN ∧ (NewScanner ">x".toList).Scan.2.1 = ">") ∧
      (NewScanner ">x".toList).Scan.2.2.input = ['x'] ∧
      (NewScanner ">x".toList).tokens 3 = [(MORE_THAN, ">"), (IDENT, "x"), (EOF, "")] :=
  ⟨(scan_angle_pushback (NewScanner ">x".toList) [] '>' ['x'] rfl (by simp) (Or.inl rfl)
      (by decide)).1 rfl,
    (scan_angle_pushback (NewScanner ">x".toList) [] '>' ['x'] rfl (by simp) (Or.inl rfl)
      (by decide)).2.2.1, by
    simp [Scanner.tokens, Scanner.Scan, Scanner.skipLoop, Scanner.scanIdent,
      Scanner.scanIdentLoop, Scanner.unread, Scanner.read, NewScanner, eof, isLetter,
      isNumber, isWhitespace]
    decide⟩

/-- C6: after leading whitespace `w`, a `=` (a `!`) that is not followed by
`=` scans as `ILLEGAL` with the one-rune lexeme `"="` (`"!"`), and the unread
input is exactly what followed it. -/
theorem scan_lone_equal_bang (s : Scanner) (w : List Char) (c : Char) (rest : List Char)
    (hin : s.input = w ++ c :: rest) (hw : ∀ x ∈ w, isWhitespace x = true)
    (hc : c = '=' ∨ c = '!') (hne : rest.head? ≠ some '=') :
    s.Scan.1 = ILLEGAL ∧ s.Scan.2.1 = String.singleton c ∧ s.Scan.2.1.length = 1 ∧
      s.Scan.2.2.input = rest := by
  rcases hc with hc | hc
  · subst hc
    have hd : s.input.dropWhile isWhitespace = '=' :: rest := by
      rw [hin]
      exact dropWhile_ws_cons w _ rest hw (by decide)
    rw [Scan_equal s rest hd, if_neg hne]
    exact ⟨rfl, rfl, rfl, rfl⟩
  · subst hc
    have hd : s.input.dropWhile isWhitespace = '!' :: rest := by
      rw [hin]
      exact dropWhile_ws_cons w _ rest hw (by decide)
    rw [Scan_bang s rest hd, if_neg hne]
    exact ⟨rfl, rfl, rfl, rfl⟩

/-- C6 witness: `"a=b"` yields `(IDENT, "a")`, `(ILLEGAL, "=")`, `(IDENT, "b")`
and `EOF`. -/
theorem scan_lone_equal_bang_witness :
    (Scanner.Scan { input := ['=', 'b'], last := none }).1 = ILLEGAL ∧
      (Scanner.Scan { input := ['=', 'b'], last := none }).2.1 = "=" ∧
      (Scanner.Scan { input := ['=', 'b'], last := none }).2.2.input = ['b'] ∧
      (NewScanner "a=b".toList).Scan.2.2 = { input := ['=', 'b'], last := none } ∧
      (NewScanner "a=b".toList).tokens 4 =
        [(IDENT, "a"), (ILLEGAL, "="), (IDENT, "b"), (EOF, "")] := by
  have h := scan_lone_equal_bang { input := ['=', 'b'], last := none } [] '=' ['b'] rfl
    (by simp) (Or.inl rfl) (by decide)
  refine ⟨h.1, h.2.1, h.2.2.2, ?_, ?_⟩
  · simp [Scanner.Scan, Scanner.skipLoop, Scanner.scanIdent,
      Scanner.scanIdentLoop, Scanner.unread, Scanner.read, NewScanner, eof, isLetter,
      isNumber, isWhitespace]
  · simp [Scanner.tokens, Scanner.Scan, Scanner.skipLoop, Scanner.scanIdent,
      Scanner.scanIdentLoop, Scanner.unread, Scanner.read, NewScanner, eof, isLetter,
      isNumber, isWhitespace]
    decide

/-- Up to the first newline, `scanComment` keeps what precedes it when no
U+0000 comes first. -/
theorem inComment_run (cs : List Char) (h : eof ∉ cs.takeWhile (fun x => x != '\n')) :
    cs.takeWhile inComment = cs.takeWhile (fun x => x != '\n') ∧
      cs.dropWhile inComment = cs.dropWhile (fun x => x != '\n') := by
  induction cs with
  | nil => exact ⟨rfl, rfl⟩
  | cons c cs ih =>
    by_cases hn : c = '\n'
    · subst hn
      exact ⟨rfl, rfl⟩
    · have hb : (c != '\n') = true := by simpa using hn
      rw [List.takeWhile_cons, if_pos hb] at h
      have he : c ≠ eof := fun e => h (e ▸ List.mem_cons_self c _)
      have hi : inComment c = true := by simp [inComment, hn, he]
      have ih2 := ih (fun hm => h (List.mem_cons_of_mem c hm))
      rw [List.takeWhile_cons, List.takeWhile_cons, List.dropWhile_cons, List.dropWhile_cons,
        if_pos hi, if_pos hb, if_pos hi, if_pos hb, ih2.1, ih2.2]
      exact ⟨rfl, rfl⟩

/-- C7 (counterexample): on `#a`, U+0000, `b`, newline, `c` the comment lexeme
is `"a"`, not the text `a`, U+0000, `b` that precedes the newline, and the
unread input resumes at `b`, inside the same line. -/
theorem scan_comment_nul_counterexample :
    (NewScanner ['#', 'a', Char.ofNat 0, 'b', '\n', 'c']).Scan.1 = COMMENT ∧
      (NewScanner ['#', 'a', Char.ofNat 0, 'b', '\n', 'c']).Scan.2.1 = "a" ∧
      (NewScanner ['#', 'a', Char.ofNat 0, 'b', '\n', 'c']).Scan.2.1 ≠
        String.mk ['a', Char.ofNat 0, 'b'] ∧
      (NewScanner ['#', 'a', Char.ofNat 0, 'b', '\n', 'c']).Scan.2.2.input = ['b', '\n', 'c'] ∧
      (NewScanner ['#', 'a', Char.ofNat 0, 'b', '\n', 'c']).Scan.2.2.Scan.1 = IDENT ∧
      (NewScanner ['#', 'a', Char.ofNat 0, 'b', '\n', 'c']).Scan.2.2.Scan.2.1 = "b" := by
  have h0 : (NewScanner ['#', 'a', Char.ofNat 0, 'b', '\n', 'c']).Scan =
      (COMMENT, "a", { input := ['b', '\n', 'c'], last := some eof }) := by
    rw [Scan_hash _ ['a', Char.ofNat 0, 'b', '\n', 'c'] (by decide)]
    decide
  have h1 : Scanner.Scan { input := ['b', '\n', 'c'], last := some eof } =
      (IDENT, "b", { input := ['\n', 'c'], last := none }) := by
    rw [Scan_letter _ 'b' ['\n', 'c'] (by decide) (by decide)]
    decide
  rw [h0, h1]
  exact ⟨rfl, rfl, by decide, rfl, rfl, rfl⟩

/-- C7 (amended): when the first rune after leading whitespace `w` is `#`,
`Scan` returns `COMMENT` with exactly the runes that follow the `#` up to, and
not including, the first newline or U+0000 (or up to the end of the input); the
lexeme holds neither of the two, and that terminating rune is consumed without
being emitted, the unread input being what follows it.  When no U+0000 comes
before the first newline, the lexeme is the text up to that newline and the
unread input is the following line. -/
theorem scan_comment_to_line_end (s : Scanner) (w cs : List Char)
    (hin : s.input = w ++ '#' :: cs) (hw : ∀ x ∈ w, isWhitespace x = true) :
    s.Scan.1 = COMMENT ∧
      s.Scan.2.1 = String.mk (cs.takeWhile inComment) ∧
      s.Scan.2.2.input = (cs.dropWhile inComment).tail ∧
      (∀ x ∈ s.Scan.2.1.data, x ≠ '\n' ∧ x ≠ eof) ∧
      (∀ d ∈ (cs.dropWhile inComment).head?, d = '\n' ∨ d = eof) ∧
      (eof ∉ cs.takeWhile (fun x => x != '\n') →
        s.Scan.2.1 = String.mk (cs.takeWhile (fun x => x != '\n')) ∧
        s.Scan.2.2.input = (cs.dropWhile (fun x => x != '\n')).tail) := by
  have hd : s.input.dropWhile isWhitespace = '#' :: cs := by
    rw [hin]
    exact dropWhile_ws_cons w _ cs hw (by decide)
  rw [Scan_hash s cs hd]
  refine ⟨rfl, rfl, read_input _ _, ?_, ?_, ?_⟩
  · intro x hx
    have h1 : inComment x = true := List.mem_takeWhile_imp hx
    simpa [inComment] using h1
  · intro d hd
    have h1 : (cs.dropWhile inComment).head? = some d := hd
    have h2 := List.head?_dropWhile_not inComment cs
    rw [h1] at h2
    have h3 : inComment d = false := by simpa using h2
    by_cases hn : d = '\n'
    · exact Or.inl hn
    · right
      by_contra he
      simp [inComment, hn, he] at h3
  · intro hfree
    have h := inComment_run cs hfree
    refine ⟨?_, ?_⟩
    · show String.mk (cs.takeWhile inComment) = _
      rw [h.1]
    · rw [read_input, h.2]

/-- C7 witness: `"x >= 1.0 # only stable\ny < 2"` yields `x`, `>=`, `1.0`,
the comment `" only stable"`, `y`, `<`, `2` and `EOF`. -/
theorem scan_comment_to_line_end_witness :
    (Scanner.Scan { input := "# only stable\ny < 2".toList, last := none }).1 = COMMENT ∧
      (Scanner.Scan { input := "# only stable\ny < 2".toList, last := none }).2.1 =
        " only stable" ∧
      (Scanner.Scan { input := "# only stable\ny < 2".toList, last := none }).2.2.input =
        "y < 2".toList ∧
      (NewScanner "x >= 1.0 # only stable\ny < 2".toList).tokens 8 =
        [(IDENT, "x"), (MORE_THAN_EQ, ">="), (VERSION, "1.0"), (COMMENT, " only stable"),
          (IDENT, "y"), (LESS_THAN, "<"), (VERSION, "2"), (EOF, "")] := by
  have h := scan_comment_to_line_end { input := "# only stable\ny < 2".toList, last := none }
    [] " only stable\ny < 2".toList rfl (by simp)
  refine ⟨h.1, ?_, ?_, ?_⟩
  · rw [h.2.1]
    decide
  · rw [h.2.2.1]
    decide
  · simp [Scanner.tokens, Scanner.Scan, Scanner.skipLoop, Scanner.scanIdent,
      Scanner.scanIdentLoop, Scanner.scanNumber, Scanner.scanNumberLoop, Scanner.scanComment,
      Scanner.scanCommentLoop, Scanner.unread, Scanner.read, NewScanner, eof, isLetter,
      isNumber, isWhitespace]
    decide

/-- C8: whenever a rune is left to read, `Scan` consumes at least one rune:
the unread input after the call is a proper suffix of the unread input before
it. -/
theorem scan_progress (s : Scanner) (h : s.input ≠ []) :
    s.Scan.2.2.input.length + 1 ≤ s.input.length ∧
      ∃ pre, pre ≠ [] ∧ s.input = pre ++ s.Scan.2.2.input := by
  obtain ⟨hsuf, hlt⟩ := Scan_input s
  have hl := hlt h
  obtain ⟨pre, hpre⟩ := hsuf
  refine ⟨hl, pre, ?_, hpre.symm⟩
  intro hp
  rw [hp, List.nil_append] at hpre
  rw [hpre] at hl
  exact Nat.lt_irrefl _ hl

/-- C8 witness: from `">x"` with a pending rune, `Scan` leaves `"x"` unread. -/
theorem scan_progress_witness :
    (Scanner.Scan { input := ['>', 'x'], last := some 'a' }).2.2.input.length + 1 ≤ 2 ∧
      ∃ pre, pre ≠ [] ∧
        ['>', 'x'] = pre ++ (Scanner.Scan { input := ['>', 'x'], last := some 'a' }).2.2.input :=
  scan_progress { input := ['>', 'x'], last := some 'a' } (by simp)

/-- Within `s.input.length` calls `Scan` returns `EOF`, for every scanner. -/
theorem eof_within (n : Nat) : ∀ s : Scanner, s.input.length ≤ n →
    ∃ k, k ≤ s.input.length ∧ (s.after k).Scan.1 = EOF ∧
      ∀ j, j < k → (s.after j).Scan.1 ≠ EOF := by
  induction n with
  | zero =>
    intro s hs
    have hnil : s.input = [] := List.length_eq_zero.mp (Nat.le_zero.mp hs)
    refine ⟨0, Nat.zero_le _, ?_, fun j hj => absurd hj (Nat.not_lt_zero j)⟩
    show s.Scan.1 = EOF
    rw [Scan_of_drop_nil s (by rw [hnil]; rfl)]
  | succ n ih =>
    intro s hs
    by_cases he : s.Scan.1 = EOF
    · exact ⟨0, Nat.zero_le _, he, fun j hj => absurd hj (Nat.not_lt_zero j)⟩
    · have hne : s.input ≠ [] := by
        intro hnil
        apply he
        rw [Scan_of_drop_nil s (by rw [hnil]; rfl)]
      have hlt := (Scan_input s).2 hne
      obtain ⟨k, hk, hkeof, hmin⟩ := ih s.Scan.2.2 (by omega)
      refine ⟨k + 1, by omega, ?_, ?_⟩
      · rw [after_succ]
        exact hkeof
      · intro j hj
        cases j with
        | zero => exact he
        | succ j =>
          rw [after_succ]
          exact hmin j (by omega)

/-- C9: `Scan` is a total function, and on an input of `n` runes the calls
return `EOF` for the first time at call `k + 1` for some `k ≤ n`: at most `n`
tokens come before the first `EOF`, which arrives within `n + 1` calls. -/
theorem scan_stream_finite (input : List Char) :
    ∃ k, k ≤ input.length ∧ ((NewScanner input).after k).Scan.1 = EOF ∧
      ∀ j, j < k → ((NewScanner input).after j).Scan.1 ≠ EOF :=
  eof_within input.length (NewScanner input) (Nat.le_refl _)

/-- C10: on an input made of spaces, tabs and newlines only (the empty input
included) the first call of `Scan` returns `(EOF, "")`. -/
theorem scan_whitespace_only (input : List Char) (hw : ∀ x ∈ input, isWhitespace x = true) :
    (NewScanner input).Scan.1 = EOF ∧ (NewScanner input).Scan.2.1 = "" := by
  have h : (NewScanner input).input.dropWhile isWhitespace = [] := by
    rw [List.dropWhile_eq_nil_iff]
    exact hw
  rw [Scan_of_drop_nil _ h]
  exact ⟨rfl, rfl⟩

/-- C10 witness: space, tab, newline, space. -/
theorem scan_whitespace_only_witness :
    (NewScanner [' ', '\t', '\n', ' ']).Scan.1 = EOF ∧
      (NewScanner [' ', '\t', '\n', ' ']).Scan.2.1 = "" :=
  scan_whitespace_only [' ', '\t', '\n', ' '] (by decide)

/-! ## Claims on the token stream as a whole -/

/-- The result of `Scan` is determined by the input left after the leading
whitespace; the pending slot plays no part. -/
theorem Scan_congr (s t : Scanner)
    (h : s.input.dropWhile isWhitespace = t.input.dropWhile isWhitespace) : s.Scan = t.Scan := by
  cases hd : t.input.dropWhile isWhitespace with
  | nil => rw [Scan_of_drop_nil s (h.trans hd), Scan_of_drop_nil t hd]
  | cons c cs => rw [Scan_of_drop_cons s c cs (h.trans hd), Scan_of_drop_cons t c cs hd]

theorem tokens_congr (n : Nat) (s t : Scanner)
    (h : s.input.dropWhile isWhitespace = t.input.dropWhile isWhitespace) :
    s.tokens n = t.tokens n := by
  cases n with
  | zero => rfl
  | succ n =>
    show (s.Scan.1, s.Scan.2.1) :: s.Scan.2.2.tokens n = (t.Scan.1, t.Scan.2.1) :: t.Scan.2.2.tokens n
    rw [Scan_congr s t h]

/-- C11: `Scan` is a total function, and when the first rune `c` after leading
whitespace `w` is not whitespace, not a letter, not a digit or period, not one
of `>`, `<`, `=`, `!`, `,`, `#` and not `eof`, it returns `ILLEGAL` with the
lexeme made of `c` alone, and the unread input is exactly what followed `c`. -/
theorem scan_illegal_fallback (s : Scanner) (w : List Char) (c : Char) (cs : List Char)
    (hin : s.input = w ++ c :: cs) (hw : ∀ x ∈ w, isWhitespace x = true)
    (hws : isWhitespace c = false) (hl : isLetter c = false) (hn : isNumber c = false)
    (he : c ≠ eof) (hop : c ≠ '>' ∧ c ≠ '<' ∧ c ≠ '=' ∧ c ≠ '!' ∧ c ≠ ',' ∧ c ≠ '#') :
    s.Scan.1 = ILLEGAL ∧ s.Scan.2.1 = String.singleton c ∧ s.Scan.2.1.data = [c] ∧
      s.Scan.2.2.input = cs := by
  have hd : s.input.dropWhile isWhitespace = c :: cs := by
    rw [hin]
    exact dropWhile_ws_cons w c cs hw hws
  obtain ⟨h1, h2, h3, h4, h5, h6⟩ := hop
  rw [Scan_switch s c cs hd hl hn he, if_neg h1, if_neg h2, if_neg h3, if_neg h4, if_neg h5,
    if_neg h6]
  exact ⟨rfl, rfl, rfl, rfl⟩

/-- A rune outside ASCII is no whitespace, letter, digit, period, operator
rune or `eof`. -/
theorem non_ascii_unclassified (c : Char) (h : 128 ≤ c.toNat) :
    isWhitespace c = false ∧ isLetter c = false ∧ isNumber c = false ∧ c ≠ eof ∧
      (c ≠ '>' ∧ c ≠ '<' ∧ c ≠ '=' ∧ c ≠ '!' ∧ c ≠ ',' ∧ c ≠ '#') := by
  have hne : ∀ d : Char, d.toNat < 128 → c ≠ d := by
    intro d hd e
    rw [e] at h
    omega
  refine ⟨?_, ?_, ?_, hne _ (by decide), hne _ (by decide), hne _ (by decide),
    hne _ (by decide), hne _ (by decide), hne _ (by decide), hne _ (by decide)⟩
  · cases hw : isWhitespace c
    · rfl
    · rcases (isWhitespace_iff c).1 hw with e | e | e
      · exact absurd e (hne _ (by decide))
      · exact absurd e (hne _ (by decide))
      · exact absurd e (hne _ (by decide))
  · cases hl : isLetter c
    · rfl
    · rw [isLetter_iff] at hl
      omega
  · cases hn : isNumber c
    · rfl
    · rw [isNumber_iff] at hn
      omega

/-- C11 witness: `"é$"` yields `(ILLEGAL, "é")` and leaves `"$"`. -/
theorem scan_illegal_fallback_witness :
    (NewScanner ['é', '$']).Scan.1 = ILLEGAL ∧ (NewScanner ['é', '$']).Scan.2.1 = "é" ∧
      (NewScanner ['é', '$']).Scan.2.1.data = ['é'] ∧
      (NewScanner ['é', '$']).Scan.2.2.input = ['$'] :=
  scan_illegal_fallback (NewScanner ['é', '$']) [] 'é' ['$'] rfl (by simp)
    (non_ascii_unclassified 'é' (by decide)).1 (non_ascii_unclassified 'é' (by decide)).2.1
    (non_ascii_unclassified 'é' (by decide)).2.2.1
    (non_ascii_unclassified 'é' (by decide)).2.2.2.1
    (non_ascii_unclassified 'é' (by decide)).2.2.2.2

/-- C12: whitespace `w` in front of an input changes nothing: `Scan` returns
the same kind and lexeme and leaves the same unread input, and the first `n`
tokens agree for every `n`. -/
theorem scan_leading_whitespace (w input : List Char) (hw : ∀ x ∈ w, isWhitespace x = true) :
    (NewScanner (w ++ input)).Scan.1 = (NewScanner input).Scan.1 ∧
      (NewScanner (w ++ input)).Scan.2.1 = (NewScanner input).Scan.2.1 ∧
      (NewScanner (w ++ input)).Scan.2.2.input = (NewScanner input).Scan.2.2.input ∧
      ∀ n, (NewScanner (w ++ input)).tokens n = (NewScanner input).tokens n := by
  have h : (NewScanner (w ++ input)).input.dropWhile isWhitespace =
      (NewScanner input).input.dropWhile isWhitespace := dropWhile_ws_append w input hw
  rw [Scan_congr _ _ h]
  exact ⟨rfl, rfl, rfl, fun n => tokens_congr n _ _ h⟩

/-- C12 witness: `" \t\nab<"` scans like `"ab<"`. -/
theorem scan_leading_whitespace_witness :
    (NewScanner ([' ', '\t', '\n'] ++ ['a', 'b', '<'])).Scan.1 =
        (NewScanner ['a', 'b', '<']).Scan.1 ∧
      (NewScanner ([' ', '\t', '\n'] ++ ['a', 'b', '<'])).Scan.2.1 =
        (NewScanner ['a', 'b', '<']).Scan.2.1 ∧
      (NewScanner ([' ', '\t', '\n'] ++ ['a', 'b', '<'])).Scan.2.2.input =
        (NewScanner ['a', 'b', '<']).Scan.2.2.input ∧
      ∀ n, (NewScanner ([' ', '\t', '\n'] ++ ['a', 'b', '<'])).tokens n =
        (NewScanner ['a', 'b', '<']).tokens n :=
  scan_leading_whitespace [' ', '\t', '\n'] ['a', 'b', '<'] (by decide)

/-- C15: the three classifiers are what `process.go` spells out: whitespace is
space, tab or newline; a letter lies in `a`..`z` or `A`..`Z` (so no digit, not
`_`, no rune outside ASCII); a number rune lies in `0`..`9` or is the period.
The three classes are pairwise disjoint and `eof` belongs to none. -/
theorem classifier_definitions (c : Char) :
    (isWhitespace c = true ↔ c = ' ' ∨ c = '\t' ∨ c = '\n') ∧
      (isLetter c = true ↔ ('a' ≤ c ∧ c ≤ 'z') ∨ ('A' ≤ c ∧ c ≤ 'Z')) ∧
      (isNumber c = true ↔ ('0' ≤ c ∧ c ≤ '9') ∨ c = '.') ∧
      (('0' ≤ c ∧ c ≤ '9') → isLetter c = false) ∧
      isLetter '_' = false ∧
      (128 ≤ c.toNat → isLetter c = false) ∧
      ¬ (isWhitespace c = true ∧ isLetter c = true) ∧
      ¬ (isWhitespace c = true ∧ isNumber c = true) ∧
      ¬ (isLetter c = true ∧ isNumber c = true) ∧
      isWhitespace eof = false ∧ isLetter eof = false ∧ isNumber eof = false := by
  refine ⟨isWhitespace_iff c, ?_, ?_, ?_, by decide, fun h => (non_ascii_unclassified c h).2.1,
    ?_, ?_, ?_, isWhitespace_eof, isLetter_eof, isNumber_eof⟩
  · simp [isLetter]
  · simp [isNumber]
  · intro h
    cases hl : isLetter c
    · rfl
    · rw [isLetter_iff] at hl
      rw [char_le_iff, char_le_iff] at h
      have e0 : ('0' : Char).toNat = 48 := rfl
      have e9 : ('9' : Char).toNat = 57 := rfl
      omega
  · intro h
    rw [not_ws_of_letter h.2] at h
    exact Bool.false_ne_true h.1
  · intro h
    rw [not_ws_of_number h.2] at h
    exact Bool.false_ne_true h.1
  · intro h
    rw [not_letter_of_number h.2] at h
    exact Bool.false_ne_true h.1

theorem letter_range {x : Char} (h : isLetter x = true) :
    ('a' ≤ x ∧ x ≤ 'z') ∨ ('A' ≤ x ∧ x ≤ 'Z') := by
  simpa [isLetter] using h

theorem number_range {x : Char} (h : isNumber x = true) :
    ('0' ≤ x ∧ x ≤ '9') ∨ x = '.' := by
  simpa [isNumber] using h

/-- Every token `Scan` returns is well-formed for its kind, from any state. -/
theorem Scan_wellFormed (s : Scanner) : wellFormed s.Scan.1 s.Scan.2.1 := by
  cases hd : s.input.dropWhile isWhitespace with
  | nil =>
    rw [Scan_of_drop_nil s hd]
    exact rfl
  | cons c cs =>
    by_cases hl : isLetter c = true
    · rw [Scan_letter s c cs hd hl]
      refine ⟨?_, fun x hx => letter_range (List.mem_takeWhile_imp hx)⟩
      show (c :: cs).takeWhile isLetter ≠ []
      rw [List.takeWhile_cons, if_pos hl]
      exact List.cons_ne_nil _ _
    by_cases hn : isNumber c = true
    · rw [Scan_number s c cs hd hn]
      refine ⟨?_, fun x hx => number_range (List.mem_takeWhile_imp hx)⟩
      show (c :: cs).takeWhile isNumber ≠ []
      rw [List.takeWhile_cons, if_pos hn]
      exact List.cons_ne_nil _ _
    by_cases he : c = eof
    · rw [Scan_of_drop_cons s c cs hd, if_neg hl, if_neg hn, if_pos he]
      exact rfl
    rw [Scan_switch s c cs hd (by simpa using hl) (by simpa using hn) he]
    repeat' split
    all_goals first
      | exact rfl
      | (intro hx
         have h1 : inComment '\n' = true := List.mem_takeWhile_imp hx
         exact absurd h1 (by decide))

/-- C14: every token returned by any call of `Scan` on any input is
well-formed for its kind: never `WS`; operators and the comma carry exactly
their spelling; `IDENT` a non-empty run of ASCII letters; `VERSION` a non-empty
run of digits and periods; `ILLEGAL` exactly one rune; `EOF` the empty string;
`COMMENT` a string without newline. -/
theorem scan_token_well_formed (input : List Char) (n : Nat) :
    wellFormed ((NewScanner input).after n).Scan.1 ((NewScanner input).after n).Scan.2.1 ∧
      ((NewScanner input).after n).Scan.1 ≠ WS :=
  ⟨Scan_wellFormed _, fun h => by
    have hw := Scan_wellFormed ((NewScanner input).after n)
    rw [h] at hw
    exact hw⟩

theorem takeWhile_run (p : Char → Bool) (t : List Char) (d : Char) (r : List Char)
    (ht : ∀ x ∈ t, p x = true) (hd : p d = false) :
    (t ++ d :: r).takeWhile p = t ∧ (t ++ d :: r).dropWhile p = d :: r := by
  induction t with
  | nil =>
    rw [List.nil_append, List.takeWhile_cons, List.dropWhile_cons, if_neg (by simp [hd]),
      if_neg (by simp [hd])]
    exact ⟨rfl, rfl⟩
  | cons a as ih =>
    have ha : p a = true := ht a (List.mem_cons_self a as)
    have ih2 := ih (fun x hx => ht x (List.mem_cons_of_mem a hx))
    rw [List.cons_append, List.takeWhile_cons, List.dropWhile_cons, if_pos ha, if_pos ha,
      ih2.1, ih2.2]
    exact ⟨rfl, rfl⟩

/-- C18: the sentinel `eof` is the rune U+0000, so a literal U+0000 met as the
first significant rune makes `Scan` return `(EOF, "")` with that rune consumed,
and the scanner then goes on over the remainder `r` exactly as a fresh scanner
over `r` does; a run of letters, a run of digits and periods, and a comment are
ended by an embedded U+0000 as well (which a comment consumes and the other
two leave unread). -/
theorem scan_sentinel_collision (s : Scanner) (w r : List Char)
    (hw : ∀ x ∈ w, isWhitespace x = true) :
    (s.input = w ++ eof :: r →
        s.Scan.1 = EOF ∧ s.Scan.2.1 = "" ∧ s.Scan.2.2.input = r ∧
        s.Scan.2.2.Scan = (NewScanner r).Scan ∧
        ∀ n, s.Scan.2.2.tokens n = (NewScanner r).tokens n) ∧
      (∀ t : List Char, t ≠ [] → (∀ x ∈ t, isLetter x = true) →
        s.input = w ++ (t ++ eof :: r) →
        s.Scan.1 = IDENT ∧ s.Scan.2.1 = String.mk t ∧ s.Scan.2.2.input = eof :: r) ∧
      (∀ t : List Char, t ≠ [] → (∀ x ∈ t, isNumber x = true) →
        s.input = w ++ (t ++ eof :: r) →
        s.Scan.1 = VERSION ∧ s.Scan.2.1 = String.mk t ∧ s.Scan.2.2.input = eof :: r) ∧
      (∀ t : List Char, (∀ x ∈ t, x ≠ '\n' ∧ x ≠ eof) →
        s.input = w ++ '#' :: (t ++ eof :: r) →
        s.Scan.1 = COMMENT ∧ s.Scan.2.1 = String.mk t ∧ s.Scan.2.2.input = r) := by
  refine ⟨fun hin => ?_, fun t hne ht hin => ?_, fun t hne ht hin => ?_, fun t ht hin => ?_⟩
  · have hd : s.input.dropWhile isWhitespace = eof :: r := by
      rw [hin]
      exact dropWhile_ws_cons w eof r hw isWhitespace_eof
    rw [Scan_of_drop_cons s eof r hd, if_neg (by simp [isLetter_eof]),
      if_neg (by simp [isNumber_eof]), if_pos rfl]
    exact ⟨rfl, rfl, rfl, Scan_congr _ _ rfl, fun n => tokens_congr n _ _ rfl⟩
  · obtain ⟨c, cs, rfl⟩ := List.exists_cons_of_ne_nil hne
    have hc : isLetter c = true := ht c (List.mem_cons_self c cs)
    have hd : s.input.dropWhile isWhitespace = c :: (cs ++ eof :: r) := by
      rw [hin]
      exact dropWhile_ws_cons w c _ hw (not_ws_of_letter hc)
    have hrun := takeWhile_run isLetter (c :: cs) eof r ht isLetter_eof
    rw [Scan_letter s c _ hd hc]
    exact ⟨rfl, congrArg String.mk hrun.1, hrun.2⟩
  · obtain ⟨c, cs, rfl⟩ := List.exists_cons_of_ne_nil hne
    have hc : isNumber c = true := ht c (List.mem_cons_self c cs)
    have hd : s.input.dropWhile isWhitespace = c :: (cs ++ eof :: r) := by
      rw [hin]
      exact dropWhile_ws_cons w c _ hw (not_ws_of_number hc)
    have hrun := takeWhile_run isNumber (c :: cs) eof r ht isNumber_eof
    rw [Scan_number s c _ hd hc]
    exact ⟨rfl, congrArg String.mk hrun.1, hrun.2⟩
  · have hd : s.input.dropWhile isWhitespace = '#' :: (t ++ eof :: r) := by
      rw [hin]
      exact dropWhile_ws_cons w _ _ hw (by decide)
    have hrun := takeWhile_run inComment t eof r
      (fun x hx => by simpa [inComment] using ht x hx) (by decide)
    rw [Scan_hash s _ hd, hrun.1, hrun.2]
    exact ⟨rfl, rfl, rfl⟩

/-- C18 witness: U+0000 then `a>`: `EOF` with `a>` left, scanned as afresh;
`ab`, `1.2` and the comment `#x` each stop at U+0000. -/
theorem scan_sentinel_collision_witness :
    ((NewScanner [eof, 'a', '>']).Scan.1 = EOF ∧ (NewScanner [eof, 'a', '>']).Scan.2.1 = "" ∧
        (NewScanner [eof, 'a', '>']).Scan.2.2.input = ['a', '>'] ∧
        (NewScanner [eof, 'a', '>']).Scan.2.2.Scan = (NewScanner ['a', '>']).Scan ∧
        ∀ n, (NewScanner [eof, 'a', '>']).Scan.2.2.tokens n = (NewScanner ['a', '>']).tokens n) ∧
      ((NewScanner ['a', 'b', eof, 'c']).Scan.1 = IDENT ∧
        (NewScanner ['a', 'b', eof, 'c']).Scan.2.1 = "ab" ∧
        (NewScanner ['a', 'b', eof, 'c']).Scan.2.2.input = [eof, 'c']) ∧
      ((NewScanner ['1', '.', '2', eof, 'c']).Scan.1 = VERSION ∧
        (NewScanner ['1', '.', '2', eof, 'c']).Scan.2.1 = "1.2" ∧
        (NewScanner ['1', '.', '2', eof, 'c']).Scan.2.2.input = [eof, 'c']) ∧
      ((NewScanner ['#', 'x', eof, 'c']).Scan.1 = COMMENT ∧
        (NewScanner ['#', 'x', eof, 'c']).Scan.2.1 = "x" ∧
        (NewScanner ['#', 'x', eof, 'c']).Scan.2.2.input = ['c']) :=
  ⟨(scan_sentinel_collision (NewScanner [eof, 'a', '>']) [] ['a', '>'] (by simp)).1 rfl,
    (scan_sentinel_collision (NewScanner ['a', 'b', eof, 'c']) [] ['c'] (by simp)).2.1
      ['a', 'b'] (by simp) (by decide) rfl,
    (scan_sentinel_collision (NewScanner ['1', '.', '2', eof, 'c']) [] ['c'] (by simp)).2.2.1
      ['1', '.', '2'] (by simp) (by decide) rfl,
    (scan_sentinel_collision (NewScanner ['#', 'x', eof, 'c']) [] ['c'] (by simp)).2.2.2
      ['x'] (by decide) rfl⟩

/-- When the first significant rune is neither `eof` nor `#`, the lexeme
followed by the unread input is the input from that rune on. -/
theorem Scan_lexeme_append (s : Scanner) (c : Char) (cs : List Char)
    (hd : s.input.dropWhile isWhitespace = c :: cs) (he : c ≠ eof) (hh : c ≠ '#') :
    s.Scan.2.1.data ++ s.Scan.2.2.input = c :: cs := by
  have hop : ∀ a : Char, cs.head? = some '=' → [a, '='] ++ cs.tail = a :: cs := by
    intro a h
    cases cs with
    | nil => simp at h
    | cons d ds =>
      have hd2 : d = '=' := by simpa using h
      rw [hd2]
      rfl
  by_cases hl : isLetter c = true
  · rw [Scan_letter s c cs hd hl]
    exact List.takeWhile_append_dropWhile _ _
  by_cases hn : isNumber c = true
  · rw [Scan_number s c cs hd hn]
    exact List.takeWhile_append_dropWhile _ _
  rw [Scan_switch s c cs hd (by simpa using hl) (by simpa using hn) he]
  by_cases h1 : c = '>'
  · rw [if_pos h1, h1]
    split
    · exact hop _ (by assumption)
    · rfl
  by_cases h2 : c = '<'
  · rw [if_neg h1, if_pos h2, h2]
    split
    · exact hop _ (by assumption)
    · rfl
  by_cases h3 : c = '='
  · rw [if_neg h1, if_neg h2, if_pos h3, h3]
    split
    · exact hop _ (by assumption)
    · rfl
  by_cases h4 : c = '!'
  · rw [if_neg h1, if_neg h2, if_neg h3, if_pos h4, h4]
    split
    · exact hop _ (by assumption)
    · rfl
  rw [if_neg h1, if_neg h2, if_neg h3, if_neg h4]
  by_cases h5 : c = ','
  · rw [if_pos h5, h5]
    rfl
  · rw [if_neg h5, if_neg hh]
    rfl

theorem concatLexemes_cons (t : Token × String) (ts : List (Token × String)) :
    (concatLexemes (t :: ts)).data = t.2.data ++ (concatLexemes ts).data := by
  show (t.2 ++ concatLexemes ts).data = _
  exact String.data_append _ _

/-- Scanning input free of whitespace, `#` and U+0000 up to the first `EOF`
returns lexemes that spell the input, from every state. -/
theorem lossless_within (n : Nat) : ∀ s : Scanner, s.input.length ≤ n →
    (∀ x ∈ s.input, isWhitespace x = false ∧ x ≠ '#' ∧ x ≠ eof) →
    ∃ k, k ≤ s.input.length ∧ (s.after k).Scan.1 = EOF ∧
      (∀ j, j < k → (s.after j).Scan.1 ≠ EOF) ∧
      (concatLexemes (s.tokens k)).data = s.input := by
  induction n with
  | zero =>
    intro s hs _
    have hnil : s.input = [] := List.length_eq_zero.mp (Nat.le_zero.mp hs)
    refine ⟨0, Nat.zero_le _, ?_, fun j hj => absurd hj (Nat.not_lt_zero j), ?_⟩
    · show s.Scan.1 = EOF
      rw [Scan_of_drop_nil s (by rw [hnil]; rfl)]
    · rw [hnil]
      rfl
  | succ n ih =>
    intro s hs hclean
    cases hi : s.input with
    | nil =>
      refine ⟨0, Nat.zero_le _, ?_, fun j hj => absurd hj (Nat.not_lt_zero j), rfl⟩
      show s.Scan.1 = EOF
      rw [Scan_of_drop_nil s (by rw [hi]; rfl)]
    | cons c cs =>
      have hc := hclean c (hi ▸ List.mem_cons_self c cs)
      have hd : s.input.dropWhile isWhitespace = c :: cs := by
        rw [hi, List.dropWhile_cons, if_neg (by simp [hc.1])]
      have hne : s.Scan.1 ≠ EOF := Scan_tok_ne_eof s c cs hd hc.2.2
      have happ := Scan_lexeme_append s c cs hd hc.2.2 hc.2.1
      have hsuf := (Scan_input s).1
      have hlt := (Scan_input s).2 (by rw [hi]; exact List.cons_ne_nil _ _)
      obtain ⟨k, hk, hkeof, hmin, hcat⟩ := ih s.Scan.2.2 (by omega)
        (fun x hx => hclean x (hsuf.subset hx))
      rw [hi] at hlt
      refine ⟨k + 1, by omega, ?_, ?_, ?_⟩
      · rw [after_succ]
        exact hkeof
      · intro j hj
        cases j with
        | zero => exact hne
        | succ j =>
          rw [after_succ]
          exact hmin j (by omega)
      · show (concatLexemes ((s.Scan.1, s.Scan.2.1) :: s.Scan.2.2.tokens k)).data = _
        rw [concatLexemes_cons, hcat]
        exact happ

/-- C17: on an input without space, tab, newline, `#` and U+0000, the lexemes
of the tokens `Scan` returns before the first `EOF`, concatenated in order,
are the input: no rune is dropped, duplicated or reordered. -/
theorem scan_lossless (input : List Char)
    (h : ∀ x ∈ input, x ≠ ' ' ∧ x ≠ '\t' ∧ x ≠ '\n' ∧ x ≠ '#' ∧ x ≠ eof) :
    ∃ k, k ≤ input.length ∧ ((NewScanner input).after k).Scan.1 = EOF ∧
      (∀ j, j < k → ((NewScanner input).after j).Scan.1 ≠ EOF) ∧
      concatLexemes ((NewScanner input).tokens k) = String.mk input := by
  have hclean : ∀ x ∈ (NewScanner input).input, isWhitespace x = false ∧ x ≠ '#' ∧ x ≠ eof := by
    intro x hx
    obtain ⟨h1, h2, h3, h4, h5⟩ := h x hx
    refine ⟨?_, h4, h5⟩
    cases hw : isWhitespace x
    · rfl
    · rcases (isWhitespace_iff x).1 hw with e | e | e
      · exact absurd e h1
      · exact absurd e h2
      · exact absurd e h3
  obtain ⟨k, hk, hkeof, hmin, hcat⟩ :=
    lossless_within input.length (NewScanner input) (Nat.le_refl _) hclean
  exact ⟨k, hk, hkeof, hmin, String.ext hcat⟩

/-- C17 witness: `"a>=1.2,=b"` yields `a`, `>=`, `1.2`, `,`, `=`, `b`, whose
lexemes spell the input. -/
theorem scan_lossless_witness :
    (∃ k, k ≤ 9 ∧ ((NewScanner "a>=1.2,=b".toList).after k).Scan.1 = EOF ∧
      (∀ j, j < k → ((NewScanner "a>=1.2,=b".toList).after j).Scan.1 ≠ EOF) ∧
      concatLexemes ((NewScanner "a>=1.2,=b".toList).tokens k) = "a>=1.2,=b") ∧
      (NewScanner "a>=1.2,=b".toList).tokens 7 =
        [(IDENT, "a"), (MORE_THAN_EQ, ">="), (VERSION, "1.2"), (COMMA, ","), (ILLEGAL, "="),
          (IDENT, "b"), (EOF, "")] :=
  ⟨scan_lossless "a>=1.2,=b".toList (by decide), by
    simp [Scanner.tokens, Scanner.Scan, Scanner.skipLoop, Scanner.scanIdent,
      Scanner.scanIdentLoop, Scanner.scanNumber, Scanner.scanNumberLoop, Scanner.unread,
      Scanner.read, NewScanner, eof, isLetter, isNumber, isWhitespace]
    decide⟩

/-- C16: `fill_nvd` requests the archives of the years 2002 to 2015, one
each and in ascending order, every address being the template with the year
substituted; the loop stops at `i < 16`, so the archive of 2016 that the loop's
own comment announces is never requested. -/
theorem fill_nvd_years :
    fill_nvd = (List.range' 2002 14).map nvdUrl ∧ fill_nvd.length = 14 ∧
      nvdUrl 2016 ∉ fill_nvd ∧ fill_nvd.getLast? = some (nvdUrl 2015) ∧
      nvdUrl 2015 = "http://static.nvd.nist.gov/feeds/xml/cve/nvdcve-2.0-2015.xml.gz" := by
  have h : fill_nvd = (List.range' 2002 14).map nvdUrl := by
    simp [fill_nvd, fill_nvd_loop, List.range']
  rw [h]
  refine ⟨rfl, by decide, by decide, by decide, by decide⟩

/-! ## The logged scanner -/

theorem traced_skipLoop (inp : List Char) (l : Option Char) (ops : List Op) (ch : Char) :
    ∃ n, Traced.skipLoop ch { sc := { input := inp, last := l }, ops := ops } =
      ((Scanner.skipLoop ch { input := inp, last := l }).1,
        { sc := (Scanner.skipLoop ch { input := inp, last := l }).2,
          ops := ops ++ List.replicate n Op.read }) := by
  induction inp generalizing ch l ops with
  | nil =>
    rw [Traced.skipLoop, Scanner.skipLoop]
    split
    · refine ⟨1, ?_⟩
      simp only [Traced.read, read_nil]
      rw [Traced.skipLoop, Scanner.skipLoop, if_neg (by simp [isWhitespace_eof]),
        if_neg (by simp [isWhitespace_eof])]
      rfl
    · exact ⟨0, by simp⟩
  | cons c cs ih =>
    rw [Traced.skipLoop, Scanner.skipLoop]
    split
    · simp only [Traced.read, read_cons]
      obtain ⟨n, hn⟩ := ih (some c) (ops ++ [Op.read]) c
      refine ⟨n + 1, ?_⟩
      rw [hn, List.replicate_succ]
      simp
    · exact ⟨0, by simp⟩

theorem traced_scanIdentLoop (inp : List Char) (l : Option Char) (ops : List Op) (ch : Char)
    (buf : String) :
    ∃ n, Traced.scanIdentLoop ch buf { sc := { input := inp, last := l }, ops := ops } =
      ((Scanner.scanIdentLoop ch buf { input := inp, last := l }).1,
        { sc := (Scanner.scanIdentLoop ch buf { input := inp, last := l }).2,
          ops := ops ++ List.replicate n Op.read }) := by
  induction inp generalizing ch l ops buf with
  | nil =>
    rw [Traced.scanIdentLoop, Scanner.scanIdentLoop]
    split
    · refine ⟨1, ?_⟩
      simp only [Traced.read, read_nil]
      rw [Traced.scanIdentLoop, Scanner.scanIdentLoop, if_neg (by simp [isLetter_eof]),
        if_neg (by simp [isLetter_eof])]
      rfl
    · exact ⟨0, by simp⟩
  | cons c cs ih =>
    rw [Traced.scanIdentLoop, Scanner.scanIdentLoop]
    split
    · simp only [Traced.read, read_cons]
      obtain ⟨n, hn⟩ := ih (some c) (ops ++ [Op.read]) c (buf.push ch)
      refine ⟨n + 1, ?_⟩
      rw [hn, List.replicate_succ]
      simp
    · exact ⟨0, by simp⟩

theorem traced_scanNumberLoop (inp : List Char) (l : Option Char) (ops : List Op) (ch : Char)
    (buf : String) :
    ∃ n, Traced.scanNumberLoop ch buf { sc := { input := inp, last := l }, ops := ops } =
      ((Scanner.scanNumberLoop ch buf { input := inp, last := l }).1,
        { sc := (Scanner.scanNumberLoop ch buf { input := inp, last := l }).2,
          ops := ops ++ List.replicate n Op.read }) := by
  induction inp generalizing ch l ops buf with
  | nil =>
    rw [Traced.scanNumberLoop, Scanner.scanNumberLoop]
    split
    · refine ⟨1, ?_⟩
      simp only [Traced.read, read_nil]
      rw [Traced.scanNumberLoop, Scanner.scanNumberLoop, if_neg (by simp [isNumber_eof]),
        if_neg (by simp [isNumber_eof])]
      rfl
    · exact ⟨0, by simp⟩
  | cons c cs ih =>
    rw [Traced.scanNumberLoop, Scanner.scanNumberLoop]
    split
    · simp only [Traced.read, read_cons]
      obtain ⟨n, hn⟩ := ih (some c) (ops ++ [Op.read]) c (buf.push ch)
      refine ⟨n + 1, ?_⟩
      rw [hn, List.replicate_succ]
      simp
    · exact ⟨0, by simp⟩

theorem traced_scanCommentLoop (inp : List Char) (l : Option Char) (ops : List Op) (ch : Char)
    (buf : String) :
    ∃ n, Traced.scanCommentLoop ch buf { sc := { input := inp, last := l }, ops := ops } =
      ((Scanner.scanCommentLoop ch buf { input := inp, last := l }).1,
        { sc := (Scanner.scanCommentLoop ch buf { input := inp, last := l }).2,
          ops := ops ++ List.replicate n Op.read }) := by
  induction inp generalizing ch l ops buf with
  | nil =>
    rw [Traced.scanCommentLoop, Scanner.scanCommentLoop]
    split
    · refine ⟨1, ?_⟩
      simp only [Traced.read, read_nil]
      rw [Traced.scanCommentLoop, Scanner.scanCommentLoop, if_neg (by simp),
        if_neg (by simp)]
      rfl
    · exact ⟨0, by simp⟩
  | cons c cs ih =>
    rw [Traced.scanCommentLoop, Scanner.scanCommentLoop]
    split
    · simp only [Traced.read, read_cons]
      obtain ⟨n, hn⟩ := ih (some c) (ops ++ [Op.read]) c (buf.push ch)
      refine ⟨n + 1, ?_⟩
      rw [hn, List.replicate_succ]
      simp
    · exact ⟨0, by simp⟩

theorem traced_scanIdent (t : Traced) :
    ∃ n, t.scanIdent = (t.sc.scanIdent.1,
      { sc := t.sc.scanIdent.2,
        ops := t.ops ++ Op.read :: (List.replicate n Op.read ++ [Op.unread]) }) := by
  obtain ⟨⟨inp, l⟩, ops⟩ := t
  unfold Traced.scanIdent Scanner.scanIdent
  simp only [Traced.read]
  obtain ⟨n, hn⟩ := traced_scanIdentLoop (Scanner.read { input := inp, last := l }).2.input
    (Scanner.read { input := inp, last := l }).2.last (ops ++ [Op.read])
    (Scanner.read { input := inp, last := l }).1 ""
  refine ⟨n, ?_⟩
  rw [hn]
  simp [Traced.unread]

theorem traced_scanNumber (t : Traced) :
    ∃ n, t.scanNumber = (t.sc.scanNumber.1,
      { sc := t.sc.scanNumber.2,
        ops := t.ops ++ Op.read :: (List.replicate n Op.read ++ [Op.unread]) }) := by
  obtain ⟨⟨inp, l⟩, ops⟩ := t
  unfold Traced.scanNumber Scanner.scanNumber
  simp only [Traced.read]
  obtain ⟨n, hn⟩ := traced_scanNumberLoop (Scanner.read { input := inp, last := l }).2.input
    (Scanner.read { input := inp, last := l }).2.last (ops ++ [Op.read])
    (Scanner.read { input := inp, last := l }).1 ""
  refine ⟨n, ?_⟩
  rw [hn]
  simp [Traced.unread]

theorem traced_scanComment (t : Traced) :
    ∃ n, t.scanComment = (t.sc.scanComment.1,
      { sc := t.sc.scanComment.2, ops := t.ops ++ Op.read :: List.replicate n Op.read }) := by
  obtain ⟨⟨inp, l⟩, ops⟩ := t
  unfold Traced.scanComment Scanner.scanComment
  simp only [Traced.read]
  obtain ⟨n, hn⟩ := traced_scanCommentLoop (Scanner.read { input := inp, last := l }).2.input
    (Scanner.read { input := inp, last := l }).2.last (ops ++ [Op.read])
    (Scanner.read { input := inp, last := l }).1 ""
  refine ⟨n, ?_⟩
  rw [hn]
  simp

/-- The whitespace loop of the logged `Scan`, started by its first read. -/
theorem traced_skip (t : Traced) :
    ∃ n, Traced.skipLoop t.read.1 t.read.2 =
      ((Scanner.skipLoop t.sc.read.1 t.sc.read.2).1,
        { sc := (Scanner.skipLoop t.sc.read.1 t.sc.read.2).2,
          ops := t.ops ++ Op.read :: List.replicate n Op.read }) := by
  obtain ⟨s, ops⟩ := t
  simp only [Traced.read]
  obtain ⟨n, hn⟩ := traced_skipLoop s.read.2.input s.read.2.last (ops ++ [Op.read]) s.read.1
  refine ⟨n, ?_⟩
  rw [hn]
  simp

theorem noDoubleUnread_reads (n : Nat) (x : List Op) :
    noDoubleUnread (List.replicate n Op.read ++ x) = noDoubleUnread x := by
  induction n with
  | zero => rfl
  | succ n ih =>
    rw [List.replicate_succ, List.cons_append]
    show (!(Op.read == Op.unread && _) && noDoubleUnread (List.replicate n Op.read ++ x)) = _
    rw [ih]
    rfl

theorem noDoubleUnread_append_read (a tail : List Op) :
    noDoubleUnread (a ++ Op.read :: tail) = (noDoubleUnread a && noDoubleUnread tail) := by
  induction a with
  | nil => rfl
  | cons x xs ih =>
    rw [List.cons_append]
    show (!(x == Op.unread && (xs ++ Op.read :: tail).head? == some Op.unread) &&
      noDoubleUnread (xs ++ Op.read :: tail)) =
      ((!(x == Op.unread && xs.head? == some Op.unread) && noDoubleUnread xs) &&
        noDoubleUnread tail)
    rw [ih]
    cases xs with
    | nil => cases x <;> rfl
    | cons y ys => simp [Bool.and_assoc]

/-- The logged `Scan` computes what `Scan` computes, starts with a read, and
adds no double pushback to the log. -/
theorem traced_Scan (t : Traced) :
    ∃ tail, t.Scan = (t.sc.Scan.1, t.sc.Scan.2.1,
        { sc := t.sc.Scan.2.2, ops := t.ops ++ Op.read :: tail }) ∧
      noDoubleUnread tail = true := by
  obtain ⟨n, hn⟩ := traced_skip t
  unfold Traced.Scan Scanner.Scan
  simp only [hn]
  generalize Scanner.skipLoop t.sc.read.1 t.sc.read.2 = r
  obtain ⟨ch, s⟩ := r
  simp only []
  by_cases h1 : isLetter ch = true
  · obtain ⟨m, hm⟩ := traced_scanIdent
      (Traced.unread { sc := s, ops := t.ops ++ Op.read :: List.replicate n Op.read })
    refine ⟨List.replicate n Op.read ++
      Op.unread :: Op.read :: (List.replicate m Op.read ++ [Op.unread]), ?_, ?_⟩
    · simp only [h1, if_true]
      rw [hm]
      simp [Traced.unread]
    · rw [noDoubleUnread_reads]
      show (true && noDoubleUnread (List.replicate (m + 1) Op.read ++ [Op.unread])) = true
      rw [noDoubleUnread_reads]
      rfl
  by_cases h2 : isNumber ch = true
  · obtain ⟨m, hm⟩ := traced_scanNumber
      (Traced.unread { sc := s, ops := t.ops ++ Op.read :: List.replicate n Op.read })
    refine ⟨List.replicate n Op.read ++
      Op.unread :: Op.read :: (List.replicate m Op.read ++ [Op.unread]), ?_, ?_⟩
    · simp only [h1, h2, if_true, if_false]
      rw [hm]
      simp [Traced.unread]
    · rw [noDoubleUnread_reads]
      show (true && noDoubleUnread (List.replicate (m + 1) Op.read ++ [Op.unread])) = true
      rw [noDoubleUnread_reads]
      rfl
  simp only [h1, h2, if_false]
  by_cases h3 : ch = eof
  · refine ⟨List.replicate n Op.read, ?_, ?_⟩
    · simp [h3]
    · simpa using noDoubleUnread_reads n []
  simp only [h3, if_false]
  by_cases h4 : ch = '>'
  · by_cases hq : s.read.1 = '='
    · refine ⟨List.replicate n Op.read ++ [Op.read], ?_, ?_⟩
      · simp [h4, hq, Traced.read]
      · rw [noDoubleUnread_reads]
        rfl
    · refine ⟨List.replicate n Op.read ++ [Op.read, Op.unread], ?_, ?_⟩
      · simp [h4, hq, Traced.read, Traced.unread]
      · rw [noDoubleUnread_reads]
        rfl
  simp only [h4, if_false]
  by_cases h5 : ch = '<'
  · by_cases hq : s.read.1 = '='
    · refine ⟨List.replicate n Op.read ++ [Op.read], ?_, ?_⟩
      · simp [h5, hq, Traced.read]
      · rw [noDoubleUnread_reads]
        rfl
    · refine ⟨List.replicate n Op.read ++ [Op.read, Op.unread], ?_, ?_⟩
      · simp [h5, hq, Traced.read, Traced.unread]
      · rw [noDoubleUnread_reads]
        rfl
  simp only [h5, if_false]
  by_cases h6 : ch = '='
  · by_cases hq : s.read.1 = '='
    · refine ⟨List.replicate n Op.read ++ [Op.read], ?_, ?_⟩
      · simp [h6, hq, Traced.read]
      · rw [noDoubleUnread_reads]
        rfl
    · refine ⟨List.replicate n Op.read ++ [Op.read, Op.unread], ?_, ?_⟩
      · simp [h6, hq, Traced.read, Traced.unread]
      · rw [noDoubleUnread_reads]
        rfl
  simp only [h6, if_false]
  by_cases h7 : ch = '!'
  · by_cases hq : s.read.1 = '='
    · refine ⟨List.replicate n Op.read ++ [Op.read], ?_, ?_⟩
      · simp [h7, hq, Traced.read]
      · rw [noDoubleUnread_reads]
        rfl
    · refine ⟨List.replicate n Op.read ++ [Op.read, Op.unread], ?_, ?_⟩
      · simp [h7, hq, Traced.read, Traced.unread]
      · rw [noDoubleUnread_reads]
        rfl
  simp only [h7, if_false]
  by_cases h8 : ch = ','
  · refine ⟨List.replicate n Op.read, ?_, ?_⟩
    · simp [h8]
    · simpa using noDoubleUnread_reads n []
  simp only [h8, if_false]
  by_cases h9 : ch = '#'
  · obtain ⟨m, hm⟩ := traced_scanComment
      { sc := s, ops := t.ops ++ Op.read :: List.replicate n Op.read }
    refine ⟨List.replicate n Op.read ++ Op.read :: List.replicate m Op.read, ?_, ?_⟩
    · simp only [h9, if_true]
      rw [hm]
      simp
    · rw [noDoubleUnread_reads]
      simpa using noDoubleUnread_reads (m + 1) []
  · refine ⟨List.replicate n Op.read, ?_, ?_⟩
    · simp [h9]
    · simpa using noDoubleUnread_reads n []

/-- After any number of calls the logged scanner holds the state of the plain
one, and its log neither contains a double pushback nor starts with an
`unread`. -/
theorem traced_after_inv (input : List Char) (n : Nat) :
    ((NewTraced input).after n).sc = (NewScanner input).after n ∧
      noDoubleUnread ((NewTraced input).after n).ops = true ∧
      ((NewTraced input).after n).ops.head? ≠ some Op.unread := by
  induction n with
  | zero => exact ⟨rfl, rfl, by simp [Traced.after, NewTraced]⟩
  | succ n ih =>
    obtain ⟨tail, hs, hnd⟩ := traced_Scan ((NewTraced input).after n)
    obtain ⟨h1, h2, h3⟩ := ih
    show (((NewTraced input).after n).Scan).2.2.sc = (((NewScanner input).after n).Scan).2.2 ∧
      noDoubleUnread (((NewTraced input).after n).Scan).2.2.ops = true ∧
      (((NewTraced input).after n).Scan).2.2.ops.head? ≠ some Op.unread
    rw [hs]
    refine ⟨by rw [h1], ?_, ?_⟩
    · show noDoubleUnread (((NewTraced input).after n).ops ++ Op.read :: tail) = true
      rw [noDoubleUnread_append_read, h2, hnd]
      rfl
    · show (((NewTraced input).after n).ops ++ Op.read :: tail).head? ≠ some Op.unread
      cases ho : ((NewTraced input).after n).ops with
      | nil => simp
      | cons x xs =>
        rw [ho] at h3
        simpa using h3

/-- C13: the scanner with its reader calls logged returns, at every call, what
`Scan` returns; every call of `Scan` starts with a `read`; and after any number
of calls on any input the log holds no `unread` directly after another
`unread`, nor an `unread` before the first `read`: the pushback never has to
hold more than one rune. -/
theorem scan_pushback_depth_one (input : List Char) (n : Nat) :
    ((NewTraced input).after n).sc = (NewScanner input).after n ∧
      ((NewTraced input).after n).Scan.1 = ((NewScanner input).after n).Scan.1 ∧
      ((NewTraced input).after n).Scan.2.1 = ((NewScanner input).after n).Scan.2.1 ∧
      (∃ tail, ((NewTraced input).after n).Scan.2.2.ops =
        ((NewTraced input).after n).ops ++ Op.read :: tail) ∧
      noDoubleUnread ((NewTraced input).after n).ops = true ∧
      ((NewTraced input).after n).ops.head? ≠ some Op.unread := by
  obtain ⟨h1, h2, h3⟩ := traced_after_inv input n
  obtain ⟨tail, hs, _⟩ := traced_Scan ((NewTraced input).after n)
  refine ⟨h1, ?_, ?_, ⟨tail, ?_⟩, h2, h3⟩
  · rw [hs, h1]
  · rw [hs, h1]
  · rw [hs]

/-- The log of three calls on `"a>"`: the identifier is read, unread, read
again with its terminator, which is unread; `>` and the failed lookahead are
read; the last call reads the end of the input. -/
theorem traced_example :
    ((NewTraced ['a', '>']).after 3).ops =
      [Op.read, Op.unread, Op.read, Op.read, Op.unread, Op.read, Op.read, Op.unread,
        Op.read] := by
  simp [Traced.after, NewTraced, Traced.Scan, Traced.skipLoop, Traced.scanIdent,
    Traced.scanIdentLoop, Traced.unread, Traced.read, Scanner.unread, Scanner.read, NewScanner,
    eof, isLetter, isNumber, isWhitespace]

end CveCheck
